import Mathlib

/-!
Shallow embedding of the intrusive red-black tree library (rbtree.c / rbtree.h).

Nodes live in caller-owned storage; we model the node graph as a heap
`Nat → Option NodeRec` mapping node ids to records.  The C type `rb_node_t`
packs the parent pointer and the color bit into one word (`__rb_parent_color`);
we model the two components as separate fields, and every mutator mirrors the
C helper that touches the packed word (`__rb_set_parent` preserves the color,
`__rb_set_color` preserves the parent, `rb_disconnect` writes the node's own
address whose low bit is 0 = red).  Null pointers are `Option.none`.
The user payload reached via `container_of` is modelled as a `val` field;
the comparator receives payloads.

Loops are modelled with explicit fuel; a function returns `none` on fuel
exhaustion.  The library's `RB_NULL_CHECK` guards follow the safety-on
build described in the spec (§6): null inputs cause an early return, with a
null sentinel for value-returning functions.
-/

namespace RbC

inductive Color where
  | red : Color
  | black : Color
deriving DecidableEq, Repr

structure NodeRec (α : Type) where
  parent : Option Nat
  color : Color
  left : Option Nat
  right : Option Nat
  val : α
deriving DecidableEq, Repr

/-- The node store: caller-owned node objects addressed by id.  Updates
shadow earlier entries, so `hget` finds the most recent write. -/
abbrev Heap (α : Type) := List (Nat × NodeRec α)

/-- Heap lookup: the most recent write at id `i`. -/
def hget (h : Heap α) (i : Nat) : Option (NodeRec α) :=
  match h with
  | [] => none
  | (j, r) :: rest => if i = j then some r else hget rest i

/-- Heap update at a single id. -/
def hup (h : Heap α) (i : Nat) (r : NodeRec α) : Heap α :=
  (i, r) :: h

/-- `rb_parent(rb)`: parent pointer extracted from `__rb_parent_color`. -/
def rb_parent (h : Heap α) (n : Nat) : Option Nat :=
  match hget h n with
  | some r => r.parent
  | none => none

/-- `rb_left(rb)`. -/
def rb_left (h : Heap α) (n : Nat) : Option Nat :=
  match hget h n with
  | some r => r.left
  | none => none

/-- `rb_right(rb)`. -/
def rb_right (h : Heap α) (n : Nat) : Option Nat :=
  match hget h n with
  | some r => r.right
  | none => none

/-- `rb_left` lifted to a possibly-null pointer. -/
def pleft (h : Heap α) (n : Option Nat) : Option Nat :=
  n.bind (rb_left h)

/-- `rb_right` lifted to a possibly-null pointer. -/
def pright (h : Heap α) (n : Option Nat) : Option Nat :=
  n.bind (rb_right h)

/-- `rb_parent` lifted to a possibly-null pointer. -/
def pparent (h : Heap α) (n : Option Nat) : Option Nat :=
  n.bind (rb_parent h)

/-- `rb_color(rb)`: black if the pointer is null, else the color bit. -/
def rb_color (h : Heap α) (n : Option Nat) : Color :=
  match n with
  | none => .black
  | some i =>
    match hget h i with
    | some r => r.color
    | none => .black

/-- `rb_is_red(rb)`: non-null and red. -/
def rb_is_red (h : Heap α) (n : Option Nat) : Bool :=
  rb_color h n = Color.red && n.isSome

/-- `rb_is_black(rb)`: null or black. -/
def rb_is_black (h : Heap α) (n : Option Nat) : Bool :=
  rb_color h n = Color.black

/-- `__rb_set_red(rb)`. -/
def __rb_set_red (h : Heap α) (n : Option Nat) : Heap α :=
  match n with
  | none => h
  | some i =>
    match hget h i with
    | some r => hup h i { r with color := .red }
    | none => h

/-- `__rb_set_black(rb)`. -/
def __rb_set_black (h : Heap α) (n : Option Nat) : Heap α :=
  match n with
  | none => h
  | some i =>
    match hget h i with
    | some r => hup h i { r with color := .black }
    | none => h

/-- `__rb_set_color(rb, color)`. -/
def __rb_set_color (h : Heap α) (n : Option Nat) (c : Color) : Heap α :=
  if c = Color.black then __rb_set_black h n else __rb_set_red h n

/-- `__rb_swap_colors(src, dst)`. -/
def __rb_swap_colors (h : Heap α) (src dst : Option Nat) : Heap α :=
  let src_color := rb_color h src
  let h1 := __rb_set_color h src (rb_color h dst)
  __rb_set_color h1 dst src_color

/-- `__rb_set_parent(rb, parent)`: rewrites the parent bits, preserving the color. -/
def __rb_set_parent (h : Heap α) (rb parent : Option Nat) : Heap α :=
  match rb with
  | none => h
  | some i =>
    match hget h i with
    | some r => hup h i { r with parent := parent }
    | none => h

/-- Raw child-link assignment `rb_left(n) = v` (no parent update). -/
def setLeft (h : Heap α) (n : Option Nat) (v : Option Nat) : Heap α :=
  match n with
  | none => h
  | some i =>
    match hget h i with
    | some r => hup h i { r with left := v }
    | none => h

/-- Raw child-link assignment `rb_right(n) = v` (no parent update). -/
def setRight (h : Heap α) (n : Option Nat) (v : Option Nat) : Heap α :=
  match n with
  | none => h
  | some i =>
    match hget h i with
    | some r => hup h i { r with right := v }
    | none => h

/-- `__rb_replace_child(root, old, new)`: relinks the child slot of `root` that
held `old` to `new`, then sets `new`'s parent to `root` (also when `root` is
null, which is how a new root's parent becomes absent). -/
def __rb_replace_child (h : Heap α) (root old nw : Option Nat) : Heap α :=
  let h1 :=
    match root with
    | none => h
    | some ri =>
      if rb_left h ri = old then setLeft h (some ri) nw
      else if rb_right h ri = old then setRight h (some ri) nw
      else h
  __rb_set_parent h1 nw root

/-- `__rb_set_parent_and_color(rb, parent, color)`. -/
def __rb_set_parent_and_color (h : Heap α) (rb parent : Option Nat) (c : Color) : Heap α :=
  __rb_set_color (__rb_set_parent h rb parent) rb c

/-- `__rb_sibling(node)`: the other child of the parent, null for the root. -/
def __rb_sibling (h : Heap α) (node : Option Nat) : Option Nat :=
  match node with
  | none => none
  | some n =>
    match rb_parent h n with
    | none => none
    | some p => if rb_left h p = some n then rb_right h p else rb_left h p

/-- `__rb_left_rotate(root)`: pivots the right child up into `root`'s place. -/
def __rb_left_rotate (h : Heap α) (root : Nat) : Heap α :=
  let upper_root := rb_parent h root
  let pivot := rb_right h root
  let h1 := setRight h (some root) (pleft h pivot)
  let h2 := __rb_set_parent h1 (rb_right h1 root) (some root)
  let h3 := setLeft h2 pivot (some root)
  let h4 := __rb_set_parent h3 (pleft h3 pivot) pivot
  let h5 := __rb_set_parent h4 pivot upper_root
  __rb_replace_child h5 upper_root (some root) pivot

/-- `__rb_right_rotate(root)`: pivots the left child up into `root`'s place. -/
def __rb_right_rotate (h : Heap α) (root : Nat) : Heap α :=
  let upper_root := rb_parent h root
  let pivot := rb_left h root
  let h1 := setLeft h (some root) (pright h pivot)
  let h2 := __rb_set_parent h1 (rb_left h1 root) (some root)
  let h3 := setRight h2 pivot (some root)
  let h4 := __rb_set_parent h3 (pright h3 pivot) pivot
  let h5 := __rb_set_parent h4 pivot upper_root
  __rb_replace_child h5 upper_root (some root) pivot

/-- `__rb_left_rotate` on a possibly-null pointer (never null in well-formed runs). -/
def rotL (h : Heap α) (n : Option Nat) : Heap α :=
  match n with
  | some i => __rb_left_rotate h i
  | none => h

/-- `__rb_right_rotate` on a possibly-null pointer (never null in well-formed runs). -/
def rotR (h : Heap α) (n : Option Nat) : Heap α :=
  match n with
  | some i => __rb_right_rotate h i
  | none => h

/-- `rb_disconnect(rb)`: parent link becomes the node's own address (whose low
bit is 0, i.e. red), both children absent. -/
def rb_disconnect (h : Heap α) (n : Nat) : Heap α :=
  match hget h n with
  | some r => hup h n { r with parent := some n, color := .red, left := none, right := none }
  | none => h

/-- `rb_is_disconnected(rb)`. -/
def rb_is_disconnected (h : Heap α) (n : Nat) : Bool :=
  rb_parent h n = some n && (rb_left h n).isNone && (rb_right h n).isNone

/-- `__rb_node_init` / `__rb_node_clear`. -/
def __rb_node_init (h : Heap α) (n : Nat) : Heap α :=
  rb_disconnect h n

/-- Comparator applied to the payloads of two allocated nodes. -/
def cmpIds (h : Heap α) (cmp : α → α → Int) (a b : Nat) : Int :=
  match hget h a, hget h b with
  | some x, some y => cmp x.val y.val
  | _, _ => 0

/-- Comparator against a possibly-null second node (never null in well-formed runs). -/
def cmpOpt (h : Heap α) (cmp : α → α → Int) (a : Nat) (b : Option Nat) : Int :=
  match b with
  | some bb => cmpIds h cmp a bb
  | none => 0

structure RbTree where
  root : Option Nat
deriving DecidableEq, Repr

structure RbTreeL where
  root : Option Nat
  min : Option Nat
deriving DecidableEq, Repr

structure RbTreeR where
  root : Option Nat
  max : Option Nat
deriving DecidableEq, Repr

structure RbTreeLR where
  root : Option Nat
  min : Option Nat
  max : Option Nat
deriving DecidableEq, Repr

/-- The descent loop of `__rb_insert_basic`: from `cursor`, go left when
`cmp(node, cursor) < 0`, otherwise right, until an absent slot is reached.
Returns the final `cursor_parent` and which side the absent slot was on. -/
def __rb_insert_descend (h : Heap α) (cmp : α → α → Int) (node : Nat) :
    Nat → Nat → Option (Nat × Bool)
  | 0, _ => none
  | fuel+1, cursor =>
    let goLeft := cmpIds h cmp node cursor < 0
    match (if goLeft then rb_left h cursor else rb_right h cursor) with
    | none => some (cursor, goLeft)
    | some nxt => __rb_insert_descend h cmp node fuel nxt

/-- `__rb_insert_basic(root, node, cmp)`: BST descent, then attach `node` red
with absent children at the reached slot. -/
def __rb_insert_basic (h : Heap α) (cmp : α → α → Int) (root node : Nat) (fuel : Nat) :
    Option (Heap α) :=
  match __rb_insert_descend h cmp node fuel root with
  | none => none
  | some (p, left) =>
    let h1 := __rb_set_parent_and_color h (some node) (some p) .red
    let h2 := if left then setLeft h1 (some p) (some node) else setRight h1 (some p) (some node)
    let h3 := setLeft h2 (some node) none
    some (setRight h3 (some node) none)

/-- `__rb_insert_rebalance(node)`: the insertion fix-up loop. -/
def __rb_insert_rebalance : Nat → Heap α → Option Nat → Option (Heap α)
  | 0, _, _ => none
  | fuel+1, h, node =>
    let parent := pparent h node
    let uncle := __rb_sibling h parent
    let grandparent := pparent h parent
    match parent with
    | none => some (__rb_set_black h node)
    | some _ =>
      if rb_is_black h node then some h
      else if rb_is_black h parent then some h
      else if rb_is_red h uncle then
        let h1 := __rb_set_black h parent
        let h2 := __rb_set_black h1 uncle
        let h3 := __rb_set_red h2 grandparent
        __rb_insert_rebalance fuel h3 grandparent
      else
        let h' :=
          if parent = pleft h grandparent ∧ node = pleft h parent then
            rotR (__rb_swap_colors h parent grandparent) grandparent
          else if parent = pleft h grandparent ∧ node = pright h parent then
            let h1 := rotL h parent
            let center_parent := pparent h1 parent
            let center_grandparent := pparent h1 center_parent
            rotR (__rb_swap_colors h1 center_parent center_grandparent) center_grandparent
          else if parent = pright h grandparent ∧ node = pright h parent then
            rotL (__rb_swap_colors h parent grandparent) grandparent
          else if parent = pright h grandparent ∧ node = pleft h parent then
            let h1 := rotR h parent
            let center_parent := pparent h1 parent
            let center_grandparent := pparent h1 center_parent
            rotL (__rb_swap_colors h1 center_parent center_grandparent) center_grandparent
          else h
        __rb_insert_rebalance fuel h' parent

/-- The root-retracing loop `while (rb_parent(node) != NULL) node = rb_parent(node)`. -/
def retraceRoot (h : Heap α) : Nat → Nat → Option Nat
  | 0, _ => none
  | fuel+1, n =>
    match rb_parent h n with
    | none => some n
    | some p => retraceRoot h fuel p

/-- `rb_tree_insert(tree, node, cmp)`. -/
def rb_tree_insert (h : Heap α) (t : RbTree) (node : Nat) (cmp : α → α → Int) (fuel : Nat) :
    Option (Heap α × RbTree) :=
  match t.root with
  | none =>
    let h1 := __rb_set_parent_and_color h (some node) none .black
    some (h1, ⟨some node⟩)
  | some r =>
    let h1 := __rb_node_init h node
    match __rb_insert_basic h1 cmp r node fuel with
    | none => none
    | some h2 =>
      match __rb_insert_rebalance fuel h2 (some node) with
      | none => none
      | some h3 =>
        match retraceRoot h3 fuel node with
        | none => none
        | some newRoot => some (h3, ⟨some newRoot⟩)

/-- The loop of `__rb_first`: follow left links. -/
def __rb_first (h : Heap α) : Nat → Nat → Option Nat
  | 0, _ => none
  | fuel+1, cursor =>
    match rb_left h cursor with
    | none => some cursor
    | some l => __rb_first h fuel l

/-- The loop of `__rb_last`: follow right links. -/
def __rb_last (h : Heap α) : Nat → Nat → Option Nat
  | 0, _ => none
  | fuel+1, cursor =>
    match rb_right h cursor with
    | none => some cursor
    | some r => __rb_last h fuel r

/-- `rb_first(tree)`: the leftmost node of the tree, null when empty.
Outer `none` means fuel exhaustion. -/
def rb_first (h : Heap α) (t : RbTree) (fuel : Nat) : Option (Option Nat) :=
  match t.root with
  | none => some none
  | some r => (__rb_first h fuel r).map some

/-- `rb_last(tree)`: the rightmost node of the tree, null when empty. -/
def rb_last (h : Heap α) (t : RbTree) (fuel : Nat) : Option (Option Nat) :=
  match t.root with
  | none => some none
  | some r => (__rb_last h fuel r).map some

/-- The climb loop of `rb_next`: move up while the cursor is a right child;
the loop's final `cursor_parent` is the successor (null past the maximum). -/
def nextClimb (h : Heap α) : Nat → Nat → Option (Option Nat)
  | 0, _ => none
  | fuel+1, cursor =>
    match rb_parent h cursor with
    | none => some none
    | some p =>
      if rb_right h p = some cursor then nextClimb h fuel p else some (some p)

/-- The climb loop of `rb_prev`: move up while the cursor is a left child. -/
def prevClimb (h : Heap α) : Nat → Nat → Option (Option Nat)
  | 0, _ => none
  | fuel+1, cursor =>
    match rb_parent h cursor with
    | none => some none
    | some p =>
      if rb_left h p = some cursor then prevClimb h fuel p else some (some p)

/-- `rb_next(node)`: null for null or disconnected input; else leftmost of the
right subtree when it exists, otherwise the climb result. -/
def rb_next (h : Heap α) (fuel : Nat) (node : Option Nat) : Option (Option Nat) :=
  match node with
  | none => some none
  | some n =>
    if rb_is_disconnected h n then some none
    else
      match rb_right h n with
      | some r => (__rb_first h fuel r).map some
      | none => nextClimb h fuel n

/-- `rb_prev(node)`: mirror of `rb_next`. -/
def rb_prev (h : Heap α) (fuel : Nat) (node : Option Nat) : Option (Option Nat) :=
  match node with
  | none => some none
  | some n =>
    if rb_is_disconnected h n then some none
    else
      match rb_left h n with
      | some l => (__rb_last h fuel l).map some
      | none => prevClimb h fuel n

/-- The descent loop of `__rb_find`: left on negative, stop on zero, right on
positive; null when an absent slot is reached. -/
def __rb_find (h : Heap α) (cmp : α → α → Int) (key : α) :
    Nat → Option Nat → Option (Option Nat)
  | _, none => some none
  | 0, some _ => none
  | fuel+1, some cursor =>
    let c : Int := match hget h cursor with
      | some r => cmp key r.val
      | none => 0
    if c < 0 then __rb_find h cmp key fuel (rb_left h cursor)
    else if c = 0 then some (some cursor)
    else __rb_find h cmp key fuel (rb_right h cursor)

/-- `rb_find(tree, key, cmp)`. -/
def rb_find (h : Heap α) (t : RbTree) (key : α) (cmp : α → α → Int) (fuel : Nat) :
    Option (Option Nat) :=
  __rb_find h cmp key fuel t.root

/-- `rb_tree_insert_at(tree, node, hint, cmp)`: validate the hint window, then
insert starting from the hint; fall back to a plain insert when invalid. -/
def rb_tree_insert_at (h : Heap α) (t : RbTree) (node hint : Nat) (cmp : α → α → Int)
    (fuel : Nat) : Option (Heap α × RbTree) :=
  match rb_next h fuel (some hint) with
  | none => none
  | some next_pos =>
    let hint_left_cmp := cmpIds h cmp hint node
    let hint_right_cmp : Int := match next_pos with
      | some np => cmpIds h cmp np node
      | none => 0
    let hint_is_less := hint_left_cmp < 0
    let hint_successor_is_more := hint_right_cmp ≥ 0
    if hint_is_less ∧ hint_successor_is_more then
      let h1 := __rb_node_init h node
      match __rb_insert_basic h1 cmp hint node fuel with
      | none => none
      | some h2 =>
        match __rb_insert_rebalance fuel h2 (some node) with
        | none => none
        | some h3 =>
          match retraceRoot h3 fuel node with
          | none => none
          | some newRoot => some (h3, ⟨some newRoot⟩)
    else rb_tree_insert h t node cmp fuel

/-- `__rb_node_predecessor(target)`: with two children the in-order predecessor
(`rb_prev`), with one child that child, for a leaf null. -/
def __rb_node_predecessor (h : Heap α) (fuel : Nat) (target : Nat) : Option (Option Nat) :=
  if (rb_left h target).isSome && (rb_right h target).isSome then
    rb_prev h fuel (some target)
  else if (rb_right h target).isNone then some (rb_left h target)
  else if (rb_left h target).isNone then some (rb_right h target)
  else some none

/-- `__rb_node_successor(target)`: mirror of `__rb_node_predecessor`. -/
def __rb_node_successor (h : Heap α) (fuel : Nat) (target : Nat) : Option (Option Nat) :=
  if (rb_left h target).isSome && (rb_right h target).isSome then
    rb_next h fuel (some target)
  else if (rb_right h target).isNone then some (rb_left h target)
  else if (rb_left h target).isNone then some (rb_right h target)
  else some none

/-- `__rb_delete_node(target)`: splice the (at most one) child into `target`'s
slot and reset `target` to the disconnected state. -/
def __rb_delete_node (h : Heap α) (target : Nat) : Heap α :=
  let child : Option Nat :=
    match rb_left h target with
    | some l => some l
    | none =>
      match rb_right h target with
      | some r => some r
      | none => none
  let h1 := __rb_replace_child h (rb_parent h target) (some target) child
  let h2 := __rb_set_parent h1 child (rb_parent h1 target)
  rb_disconnect h2 target

/-- The caller-supplied `copy(src, dst)` callback, modelled by its contract
(spec §1, §6): overwrite the user payload of `dst` from `src`, leaving the
link fields of both nodes untouched. -/
def copyVal (h : Heap α) (src dst : Nat) : Heap α :=
  match hget h src, hget h dst with
  | some s, some d => hup h dst { d with val := s.val }
  | _, _ => h

/-- `__rb_move_and_delete(src, dst, copy)` = `__rb_delete_basic(replacement, target, copy)`. -/
def __rb_move_and_delete (h : Heap α) (src : Option Nat) (dst : Nat) : Heap α :=
  match src with
  | some s => __rb_delete_node (copyVal h s dst) s
  | none => __rb_delete_node h dst

/-- `__rb_delete_rebalance(node)`: the deletion fix-up loop. -/
def __rb_delete_rebalance : Nat → Heap α → Nat → Option (Heap α)
  | 0, _, _ => none
  | fuel+1, h, node =>
    match rb_parent h node with
    | none => some (__rb_set_black h (some node))
    | some parent =>
      if rb_is_red h (some node) then some (__rb_set_black h (some node))
      else
        let sibling := __rb_sibling h (some node)
        let hs :=
          if rb_is_red h sibling then
            let ha := __rb_set_black h sibling
            let hb := __rb_set_red ha (some parent)
            let hc :=
              if sibling = pright hb (some parent) then rotL hb (some parent)
              else rotR hb (some parent)
            (hc, __rb_sibling hc (some node))
          else (h, sibling)
        let h1 := hs.1
        let s1 := hs.2
        let sl := pleft h1 s1
        let sr := pright h1 s1
        if rb_is_black h1 sl && rb_is_black h1 sr then
          __rb_delete_rebalance fuel (__rb_set_red h1 s1) parent
        else if s1 = pright h1 (some parent) then
          let hs2 :=
            if rb_is_black h1 sr then
              let ha := __rb_set_black h1 sl
              let hb := __rb_set_red ha s1
              let hc := rotR hb s1
              (hc, __rb_sibling hc (some node))
            else (h1, s1)
          let h2 := hs2.1
          let s2 := hs2.2
          let sr2 := pright h2 s2
          let h3 := __rb_set_color h2 s2 (rb_color h2 (some parent))
          let h4 := __rb_set_black h3 (some parent)
          let h5 := __rb_set_black h4 sr2
          some (rotL h5 (some parent))
        else
          let hs2 :=
            if rb_is_black h1 sl then
              let ha := __rb_set_black h1 sr
              let hb := __rb_set_red ha s1
              let hc := rotL hb s1
              (hc, __rb_sibling hc (some node))
            else (h1, s1)
          let h2 := hs2.1
          let s2 := hs2.2
          let sl2 := pleft h2 s2
          let h3 := __rb_set_color h2 s2 (rb_color h2 (some parent))
          let h4 := __rb_set_black h3 (some parent)
          let h5 := __rb_set_black h4 sl2
          some (rotR h5 (some parent))

/-- `rb_tree_delete_at(tree, node, copy)`: pick the replacement, rebalance
before unlinking (centered on the replacement when it exists, else on the
target), retrace the root, record `rb_next(node)`, physically delete, and
clear the root when the stored root ends up disconnected. -/
def rb_tree_delete_at (h : Heap α) (t : RbTree) (node : Nat) (fuel : Nat) :
    Option (Heap α × RbTree × Option Nat) :=
  match __rb_node_predecessor h fuel node with
  | none => none
  | some replacement =>
    let hfix :=
      match replacement with
      | some r => __rb_delete_rebalance fuel h r
      | none => __rb_delete_rebalance fuel h node
    match hfix with
    | none => none
    | some h1 =>
      match retraceRoot h1 fuel node with
      | none => none
      | some cursor =>
        match rb_next h1 fuel (some node) with
        | none => none
        | some next_node =>
          let h2 := __rb_move_and_delete h1 replacement node
          let t' : RbTree :=
            match t.root with
            | some oldr => if rb_is_disconnected h2 oldr then ⟨none⟩ else ⟨some cursor⟩
            | none => ⟨none⟩
          some (h2, t', next_node)

/-- `rb_tree_delete(tree, node, cmp, copy)`: locate an equivalent node with
`rb_find`; with no match the `RB_NULL_CHECK(target)` guard (safety-on build,
spec §6) returns with no effect.  The C function is `void`: the iterator
computed by `rb_tree_delete_at` is discarded. -/
def rb_tree_delete (h : Heap α) (t : RbTree) (key : α) (cmp : α → α → Int) (fuel : Nat) :
    Option (Heap α × RbTree) :=
  match rb_find h t key cmp fuel with
  | none => none
  | some none => some (h, t)
  | some (some target) =>
    match rb_tree_delete_at h t target fuel with
    | none => none
    | some (h1, t1, _) => some (h1, t1)

/-- `rb_tree_lcached_insert(tree, node, cmp)`: seed the min on an empty tree,
update it when `cmp(node, min) <= 0`, then do the base insert. -/
def rb_tree_lcached_insert (h : Heap α) (t : RbTreeL) (node : Nat) (cmp : α → α → Int)
    (fuel : Nat) : Option (Heap α × RbTreeL) :=
  let min1 := if t.root.isNone then some node else t.min
  let min2 := if cmpOpt h cmp node min1 ≤ 0 then some node else min1
  match rb_tree_insert h ⟨t.root⟩ node cmp fuel with
  | none => none
  | some (h1, t1) => some (h1, ⟨t1.root, min2⟩)

/-- `rb_tree_rcached_insert(tree, node, cmp)`: seed the max on an empty tree,
update it when `cmp(node, max) >= 0`, then do the base insert. -/
def rb_tree_rcached_insert (h : Heap α) (t : RbTreeR) (node : Nat) (cmp : α → α → Int)
    (fuel : Nat) : Option (Heap α × RbTreeR) :=
  let max1 := if t.root.isNone then some node else t.max
  let max2 := if cmpOpt h cmp node max1 ≥ 0 then some node else max1
  match rb_tree_insert h ⟨t.root⟩ node cmp fuel with
  | none => none
  | some (h1, t1) => some (h1, ⟨t1.root, max2⟩)

/-- `rb_tree_lrcached_insert(tree, node, cmp)`. -/
def rb_tree_lrcached_insert (h : Heap α) (t : RbTreeLR) (node : Nat) (cmp : α → α → Int)
    (fuel : Nat) : Option (Heap α × RbTreeLR) :=
  let min1 := if t.root.isNone then some node else t.min
  let max1 := if t.root.isNone then some node else t.max
  let min2 := if cmpOpt h cmp node min1 ≤ 0 then some node else min1
  let max2 := if cmpOpt h cmp node max1 ≥ 0 then some node else max1
  match rb_tree_insert h ⟨t.root⟩ node cmp fuel with
  | none => none
  | some (h1, t1) => some (h1, ⟨t1.root, min2, max2⟩)

/-- `rb_tree_lcached_insert_at`. -/
def rb_tree_lcached_insert_at (h : Heap α) (t : RbTreeL) (node hint : Nat)
    (cmp : α → α → Int) (fuel : Nat) : Option (Heap α × RbTreeL) :=
  let min2 := if cmpOpt h cmp node t.min ≤ 0 then some node else t.min
  match rb_tree_insert_at h ⟨t.root⟩ node hint cmp fuel with
  | none => none
  | some (h1, t1) => some (h1, ⟨t1.root, min2⟩)

/-- `rb_tree_rcached_insert_at`. -/
def rb_tree_rcached_insert_at (h : Heap α) (t : RbTreeR) (node hint : Nat)
    (cmp : α → α → Int) (fuel : Nat) : Option (Heap α × RbTreeR) :=
  let max2 := if cmpOpt h cmp node t.max ≥ 0 then some node else t.max
  match rb_tree_insert_at h ⟨t.root⟩ node hint cmp fuel with
  | none => none
  | some (h1, t1) => some (h1, ⟨t1.root, max2⟩)

/-- `rb_tree_lrcached_insert_at`. -/
def rb_tree_lrcached_insert_at (h : Heap α) (t : RbTreeLR) (node hint : Nat)
    (cmp : α → α → Int) (fuel : Nat) : Option (Heap α × RbTreeLR) :=
  let min2 := if cmpOpt h cmp node t.min ≤ 0 then some node else t.min
  let max2 := if cmpOpt h cmp node t.max ≥ 0 then some node else t.max
  match rb_tree_insert_at h ⟨t.root⟩ node hint cmp fuel with
  | none => none
  | some (h1, t1) => some (h1, ⟨t1.root, min2, max2⟩)

/-- `rb_tree_lcached_delete_at(tree, node, cmp, copy)`: when `cmp(node, min)`
is zero, slide the min to `rb_next(node)` before the base delete; clear it
when the tree ends up empty. -/
def rb_tree_lcached_delete_at (h : Heap α) (t : RbTreeL) (node : Nat) (cmp : α → α → Int)
    (fuel : Nat) : Option (Heap α × RbTreeL × Option Nat) :=
  let min_changed := cmpOpt h cmp node t.min = 0
  match (if min_changed then rb_next h fuel (some node) else some t.min) with
  | none => none
  | some min1 =>
    match rb_tree_delete_at h ⟨t.root⟩ node fuel with
    | none => none
    | some (h1, t1, next_node) =>
      let min2 := if t1.root.isNone then none else min1
      some (h1, ⟨t1.root, min2⟩, next_node)

/-- `rb_tree_rcached_delete_at(tree, node, cmp, copy)`: when `cmp(node, max)`
is zero, retreat the max to `rb_prev(max)` before the base delete; clear it
when the tree ends up empty. -/
def rb_tree_rcached_delete_at (h : Heap α) (t : RbTreeR) (node : Nat) (cmp : α → α → Int)
    (fuel : Nat) : Option (Heap α × RbTreeR × Option Nat) :=
  let max_changed := cmpOpt h cmp node t.max = 0
  match (if max_changed then rb_prev h fuel t.max else some t.max) with
  | none => none
  | some max1 =>
    match rb_tree_delete_at h ⟨t.root⟩ node fuel with
    | none => none
    | some (h1, t1, next_node) =>
      let max2 := if t1.root.isNone then none else max1
      some (h1, ⟨t1.root, max2⟩, next_node)

/-- `rb_tree_lrcached_delete_at(tree, node, cmp, copy)`. -/
def rb_tree_lrcached_delete_at (h : Heap α) (t : RbTreeLR) (node : Nat) (cmp : α → α → Int)
    (fuel : Nat) : Option (Heap α × RbTreeLR × Option Nat) :=
  let min_changed := cmpOpt h cmp node t.min = 0
  match (if min_changed then rb_next h fuel (some node) else some t.min) with
  | none => none
  | some min1 =>
    let max_changed := cmpOpt h cmp node t.max = 0
    match (if max_changed then rb_prev h fuel t.max else some t.max) with
    | none => none
    | some max1 =>
      match rb_tree_delete_at h ⟨t.root⟩ node fuel with
      | none => none
      | some (h1, t1, next_node) =>
        let min2 := if t1.root.isNone then none else min1
        let max2 := if t1.root.isNone then none else max1
        some (h1, ⟨t1.root, min2, max2⟩, next_node)

/-- `rb_tree_lcached_delete(tree, node, cmp, copy)`. -/
def rb_tree_lcached_delete (h : Heap α) (t : RbTreeL) (key : α) (cmp : α → α → Int)
    (fuel : Nat) : Option (Heap α × RbTreeL) :=
  match rb_find h ⟨t.root⟩ key cmp fuel with
  | none => none
  | some none => some (h, t)
  | some (some target) =>
    match rb_tree_lcached_delete_at h t target cmp fuel with
    | none => none
    | some (h1, t1, _) => some (h1, t1)

/-- `rb_tree_rcached_delete(tree, node, cmp, copy)`. -/
def rb_tree_rcached_delete (h : Heap α) (t : RbTreeR) (key : α) (cmp : α → α → Int)
    (fuel : Nat) : Option (Heap α × RbTreeR) :=
  match rb_find h ⟨t.root⟩ key cmp fuel with
  | none => none
  | some none => some (h, t)
  | some (some target) =>
    match rb_tree_rcached_delete_at h t target cmp fuel with
    | none => none
    | some (h1, t1, _) => some (h1, t1)

/-- `rb_tree_lrcached_delete(tree, node, cmp, copy)`. -/
def rb_tree_lrcached_delete (h : Heap α) (t : RbTreeLR) (key : α) (cmp : α → α → Int)
    (fuel : Nat) : Option (Heap α × RbTreeLR) :=
  match rb_find h ⟨t.root⟩ key cmp fuel with
  | none => none
  | some none => some (h, t)
  | some (some target) =>
    match rb_tree_lrcached_delete_at h t target cmp fuel with
    | none => none
    | some (h1, t1, _) => some (h1, t1)

/-!
## Abstract view

`Rbt` is the shape a well-formed node graph takes: a finite binary tree of
node ids with colors and payloads.  `IsTree h p t` says the heap `h` lays the
tree `t` out under parent pointer `p` with consistent parent/child links;
this is invariant 5 of the spec (parent-child consistency) by construction,
and is the hypothesis under which the traversal loops terminate.
-/
inductive Rbt (α : Type) where
  | nil : Rbt α
  | node (c : Color) (l : Rbt α) (i : Nat) (v : α) (r : Rbt α) : Rbt α

def Rbt.rootId : Rbt α → Option Nat
  | .nil => none
  | .node _ _ i _ _ => some i

def Rbt.size : Rbt α → Nat
  | .nil => 0
  | .node _ l _ _ r => l.size + r.size + 1

/-- In-order listing of (id, payload) pairs. -/
def Rbt.inorder : Rbt α → List (Nat × α)
  | .nil => []
  | .node _ l i v r => l.inorder ++ (i, v) :: r.inorder

/-- In-order listing of node ids. -/
def Rbt.ids (t : Rbt α) : List Nat := t.inorder.map Prod.fst

/-- In-order listing of payloads. -/
def Rbt.vals (t : Rbt α) : List α := t.inorder.map Prod.snd

/-- The heap lays out tree `t` under parent pointer `p`. -/
inductive IsTree (h : Heap α) : Option Nat → Rbt α → Prop
  | nil : ∀ p, IsTree h p .nil
  | node : ∀ p c l i v r, hget h i = some ⟨p, c, l.rootId, r.rootId, v⟩ →
      IsTree h (some i) l → IsTree h (some i) r → IsTree h p (.node c l i v r)

/-- Successor of `n` in a listing: the element right after the first
occurrence of `n`. -/
def listSucc : List Nat → Nat → Option Nat
  | [], _ => none
  | [_], _ => none
  | a :: b :: rest, n => if n = a then some b else listSucc (b :: rest) n

/-- First-some choice on options. -/
def orElseO (a b : Option Nat) : Option Nat :=
  match a with
  | some x => some x
  | none => b

/-!
## Mirror symmetry

`rb_prev` is the left/right mirror of `rb_next`; rather than duplicating the
climb analysis we transport it through a heap mirror that swaps every node's
child links.
-/
def NodeRec.mirror (r : NodeRec α) : NodeRec α :=
  ⟨r.parent, r.color, r.right, r.left, r.val⟩

def hmirror (h : Heap α) : Heap α :=
  h.map (fun p => (p.1, p.2.mirror))

def Rbt.mirror : Rbt α → Rbt α
  | .nil => .nil
  | .node c l i v r => .node c r.mirror i v l.mirror

/-!
## Comparator and search-order hypotheses

The library requires `cmp` to induce a total preorder (spec §1, §7); these are
the sign laws of such a comparator.  `bstOkB` is invariant 1 of spec §3: left
descendants compare `≤ 0` against the node, right descendants `≥ 0`.
-/
structure CmpOk (cmp : α → α → Int) : Prop where
  asym : ∀ a b, cmp a b < 0 ↔ 0 < cmp b a
  le_trans : ∀ a b c, cmp a b ≤ 0 → cmp b c ≤ 0 → cmp a c ≤ 0
  lt_of_lt_of_le : ∀ a b c, cmp a b < 0 → cmp b c ≤ 0 → cmp a c < 0
  lt_of_le_of_lt : ∀ a b c, cmp a b ≤ 0 → cmp b c < 0 → cmp a c < 0

/-- BST order, invariant 1 of spec §3 (ties permitted on both sides). -/
def bstOkB (cmp : α → α → Int) : Rbt α → Bool
  | .nil => true
  | .node _ l _ v r =>
    (l.vals.all fun x => decide (cmp x v ≤ 0)) &&
      (r.vals.all fun x => decide (0 ≤ cmp x v)) && bstOkB cmp l && bstOkB cmp r

/-- Executable layout checker, sound for `IsTree`. -/
def isTreeB [DecidableEq α] (h : Heap α) (p : Option Nat) : Rbt α → Bool
  | .nil => true
  | .node c l i v r =>
    (hget h i == some ⟨p, c, l.rootId, r.rootId, v⟩) && isTreeB h (some i) l &&
      isTreeB h (some i) r

/-- The descent of `__rb_find`, phrased on the abstract tree: left on a
negative comparison, stop on zero, right on positive. -/
def findT (cmp : α → α → Int) (key : α) : Rbt α → Option Nat
  | .nil => none
  | .node _ l i v r =>
    if cmp key v < 0 then findT cmp key l
    else if cmp key v = 0 then some i
    else findT cmp key r

/-- Depth of the node with id `n` (0 at the root). -/
def Rbt.depthOf : Rbt α → Nat → Option Nat
  | .nil, _ => none
  | .node _ l i _ r, n =>
    if n = i then some 0
    else
      match l.depthOf n with
      | some d => some (d + 1)
      | none =>
        match r.depthOf n with
        | some d => some (d + 1)
        | none => none

/-- The integer-difference comparator used by the concrete scenarios. -/
def icmp : Int → Int → Int := fun a b => a - b

def w6h : Heap Int :=
  [(0, ⟨none, .black, some 1, some 2, 5⟩), (1, ⟨some 0, .red, none, none, 5⟩),
    (2, ⟨some 0, .red, none, none, 7⟩)]

def w6t : Rbt Int :=
  .node .black (.node .red .nil 1 5 .nil) 0 5 (.node .red .nil 2 7 .nil)

/-- Fresh disconnected node of id 0 with payload 1, ready for insertion. -/
def c2h0 : Heap Int := [(0, ⟨some 0, .red, none, none, 1⟩)]

/-- Scenario for C2: on an lcached tree insert key 1 (id 0) then key 0
(id 1), then delete key 1 through the public lcached delete. -/
def c2run : Option (Heap Int × RbTreeL) :=
  match rb_tree_lcached_insert c2h0 ⟨none, none⟩ 0 icmp 20 with
  | some (h1, t1) =>
    match rb_tree_lcached_insert (hup h1 1 ⟨some 1, .red, none, none, 0⟩) t1 1 icmp 20 with
    | some (h2, t2) => rb_tree_lcached_delete h2 t2 1 icmp 20
    | none => none
  | none => none

/-- Tie scenario for C2: insert key 1 (id 0) then key 1 again (id 1). -/
def c2brun : Option (Heap Int × RbTreeL) :=
  match rb_tree_lcached_insert c2h0 ⟨none, none⟩ 0 icmp 20 with
  | some (h1, t1) =>
    rb_tree_lcached_insert (hup h1 1 ⟨some 1, .red, none, none, 1⟩) t1 1 icmp 20
  | none => none

/-- Two-node tree for C4: id 0 (key 0, black root) with right child id 1
(key 1, red). -/
def c4h : Heap Int :=
  [(0, ⟨none, .black, none, some 1, 0⟩), (1, ⟨some 0, .red, none, none, 1⟩)]

/-- Scenario for C4: delete at the root, which has only a right child. -/
def c4run : Option (Heap Int × RbTree × Option Nat) :=
  rb_tree_delete_at c4h ⟨some 0⟩ 0 20

def w3h : Heap Int :=
  [(0, ⟨none, .black, some 1, some 2, 5⟩),
   (1, ⟨some 0, .red, none, none, 3⟩),
   (2, ⟨some 0, .red, none, none, 7⟩)]

/-!
## Insertion descent

`slotT` is the absent slot that the `__rb_insert_basic` descent reaches on
the abstract tree: left exactly on a strictly negative comparison, right
otherwise, recorded as (parent id, attach-on-left?).
-/
def slotT (cmp : α → α → Int) (k : α) : Rbt α → Option (Nat × Bool)
  | .nil => none
  | .node _ l i v r =>
    if cmp k v < 0 then some ((slotT cmp k l).getD (i, true))
    else some ((slotT cmp k r).getD (i, false))

/-- The subtrees visited by the insertion descent for key `k`. -/
def pathSubs (cmp : α → α → Int) (k : α) : Rbt α → List (Rbt α)
  | .nil => []
  | .node c l i v r =>
    Rbt.node c l i v r :: (if cmp k v < 0 then pathSubs cmp k l else pathSubs cmp k r)

def w7h : Heap Int :=
  [(0, ⟨none, .black, none, some 1, 5⟩),
   (1, ⟨some 0, .red, none, none, 5⟩),
   (9, ⟨some 9, .red, none, none, 5⟩)]

/-!
## Iteration
-/
/-- Iterate `rb_next` from a node, collecting the visited ids; `none` when
`steps` runs out before the walk reaches the end. -/
def iterList (h : Heap α) (fuel : Nat) (steps : Nat) (node : Option Nat) :
    Option (List Nat) :=
  match node with
  | none => some []
  | some n =>
    match steps with
    | 0 => none
    | steps+1 =>
      match rb_next h fuel (some n) with
      | none => none
      | some nxt => (iterList h fuel steps nxt).map (n :: ·)

/-- All subtrees of a tree (the tree itself included, leaves excluded). -/
def subtrees : Rbt α → List (Rbt α)
  | .nil => []
  | .node c l i v r => Rbt.node c l i v r :: (subtrees l ++ subtrees r)

/-- Functional insertion at the slot `slotT` reaches: left on a strictly
negative comparison, right otherwise, new node at the absent slot. -/
def insSlot (cmp : α → α → Int) (k : α) (nid : Nat) : Rbt α → Rbt α
  | .nil => .node .red .nil nid k .nil
  | .node c l i v r =>
    if cmp k v < 0 then .node c (insSlot cmp k nid l) i v r
    else .node c l i v (insSlot cmp k nid r)

/-!
## Hinted insertion
-/
/-- The descent for key `k` from the root of the outer tree passes through
the root of the inner tree: left on strictly negative, right otherwise. -/
inductive TowardGap (cmp : α → α → Int) (k : α) : Rbt α → Rbt α → Prop
  | refl : ∀ s, TowardGap cmp k s s
  | left : ∀ c l i v r s, cmp k v < 0 → TowardGap cmp k l s →
      TowardGap cmp k (Rbt.node c l i v r) s
  | right : ∀ c l i v r s, ¬cmp k v < 0 → TowardGap cmp k r s →
      TowardGap cmp k (Rbt.node c l i v r) s

def c5h : Heap Int :=
  [(0, ⟨none, .black, some 1, none, 1⟩),
   (1, ⟨some 0, .red, none, none, 0⟩),
   (2, ⟨some 2, .red, none, none, 1⟩)]

theorem IsTree.left_of (hw : IsTree h p (Rbt.node c l i v r)) : IsTree h (some i) l := by
  cases hw with
  | node _ _ _ _ _ _ _ hl _ => exact hl

theorem IsTree.right_of (hw : IsTree h p (Rbt.node c l i v r)) : IsTree h (some i) r := by
  cases hw with
  | node _ _ _ _ _ _ _ _ hr => exact hr

theorem IsTree.get_of (hw : IsTree h p (Rbt.node c l i v r)) :
    hget h i = some ⟨p, c, l.rootId, r.rootId, v⟩ := by
  cases hw with
  | node _ _ _ _ _ _ hg _ _ => exact hg

theorem rb_left_of (hw : IsTree h p (Rbt.node c l i v r)) : rb_left h i = l.rootId := by
  rw [rb_left, hw.get_of]

theorem rb_right_of (hw : IsTree h p (Rbt.node c l i v r)) : rb_right h i = r.rootId := by
  rw [rb_right, hw.get_of]

theorem rb_parent_of (hw : IsTree h p (Rbt.node c l i v r)) : rb_parent h i = p := by
  rw [rb_parent, hw.get_of]

theorem Rbt.size_pos_of_rootId {t : Rbt α} (hr : t.rootId = some i) : 0 < t.size := by
  cases t with
  | nil => simp [Rbt.rootId] at hr
  | node c l j v r => simp [Rbt.size]

theorem Rbt.ids_node :
    (Rbt.node c l i v r).ids = l.ids ++ i :: r.ids := by
  simp [Rbt.ids, Rbt.inorder]

theorem Rbt.rootId_mem {t : Rbt α} (hr : t.rootId = some i) : i ∈ t.ids := by
  cases t with
  | nil => simp [Rbt.rootId] at hr
  | node c l j v r =>
    simp [Rbt.rootId] at hr
    subst hr
    simp [Rbt.ids_node]

theorem Rbt.ids_eq_nil {t : Rbt α} (hr : t.rootId = none) : t.ids = [] := by
  cases t with
  | nil => simp [Rbt.ids, Rbt.inorder]
  | node c l j v r => simp [Rbt.rootId] at hr

theorem listSucc_cons_ne (hne : n ≠ y) : listSucc (y :: ys) n = listSucc ys n := by
  cases ys with
  | nil => simp [listSucc]
  | cons b rest => simp [listSucc, hne]

theorem listSucc_append_left (hmem : n ∈ xs) :
    listSucc (xs ++ y :: ys) n =
      match listSucc xs n with
      | some m => some m
      | none => some y := by
  induction xs with
  | nil => simp at hmem
  | cons a rest ih =>
    by_cases hna : n = a
    · subst hna
      cases rest with
      | nil => simp [listSucc]
      | cons b rest2 => simp [listSucc]
    · have hmem' : n ∈ rest := by
        cases hmem with
        | head => exact absurd rfl hna
        | tail _ hm => exact hm
      rw [List.cons_append, listSucc_cons_ne hna, listSucc_cons_ne hna, ih hmem']

theorem listSucc_append_not_left (hmem : n ∉ xs) :
    listSucc (xs ++ ys) n = listSucc ys n := by
  induction xs with
  | nil => simp
  | cons a rest ih =>
    have hna : n ≠ a := by intro hc; exact hmem (hc ▸ List.mem_cons_self a rest)
    have hmem' : n ∉ rest := fun hc => hmem (List.mem_cons_of_mem a hc)
    rw [List.cons_append, listSucc_cons_ne hna, ih hmem']

theorem listSucc_self_head (hmem : i ∉ xs) :
    listSucc (xs ++ i :: ys) i = ys.head? := by
  rw [listSucc_append_not_left hmem]
  cases ys with
  | nil => simp [listSucc]
  | cons b rest => simp [listSucc]

/-- `__rb_first` computes the head of the in-order listing: the leftmost node. -/
theorem first_spec (hw : IsTree h p t) (hr : t.rootId = some rt) (hf : t.size ≤ fuel) :
    __rb_first h fuel rt = t.ids.head? := by
  induction t generalizing p rt fuel with
  | nil => simp [Rbt.rootId] at hr
  | node c l i v r ihl ihr =>
    simp [Rbt.rootId] at hr
    subst hr
    obtain ⟨fuel, rfl⟩ : ∃ f, fuel = f + 1 := by
      refine ⟨fuel - 1, ?_⟩
      have : 0 < fuel := lt_of_lt_of_le (by simp [Rbt.size]) hf
      omega
    rw [__rb_first, rb_left_of hw]
    cases hl : l.rootId with
    | none =>
      have : l.ids = [] := Rbt.ids_eq_nil hl
      simp [Rbt.ids_node, this]
    | some rl =>
      have hl' : l.size ≤ fuel := by
        have := Rbt.size_pos_of_rootId hl
        simp [Rbt.size] at hf
        omega
      show __rb_first h fuel rl = _
      rw [ihl hw.left_of hl hl']
      have : l.ids ≠ [] := by
        intro hc
        have := Rbt.rootId_mem hl
        rw [hc] at this
        simp at this
      rw [Rbt.ids_node]
      cases hcl : l.ids with
      | nil => exact absurd hcl this
      | cons a rest => simp

/-- `__rb_last` computes the last of the in-order listing: the rightmost node. -/
theorem last_spec (hw : IsTree h p t) (hr : t.rootId = some rt) (hf : t.size ≤ fuel) :
    __rb_last h fuel rt = t.ids.getLast? := by
  induction t generalizing p rt fuel with
  | nil => simp [Rbt.rootId] at hr
  | node c l i v r ihl ihr =>
    simp [Rbt.rootId] at hr
    subst hr
    obtain ⟨fuel, rfl⟩ : ∃ f, fuel = f + 1 := by
      refine ⟨fuel - 1, ?_⟩
      have : 0 < fuel := lt_of_lt_of_le (by simp [Rbt.size]) hf
      omega
    rw [__rb_last, rb_right_of hw]
    cases hl : r.rootId with
    | none =>
      have : r.ids = [] := Rbt.ids_eq_nil hl
      simp [Rbt.ids_node, this]
    | some rr =>
      have hr' : r.size ≤ fuel := by
        have := Rbt.size_pos_of_rootId hl
        simp [Rbt.size] at hf
        omega
      show __rb_last h fuel rr = _
      rw [ihr hw.right_of hl hr']
      have hne : r.ids ≠ [] := by
        intro hc
        have := Rbt.rootId_mem hl
        rw [hc] at this
        simp at this
      rw [Rbt.ids_node]
      rw [List.getLast?_append_of_ne_nil]
      · cases hcr : r.ids with
        | nil => exact absurd hcr hne
        | cons a rest => rw [List.getLast?_cons_cons]
      · simp

theorem orElseO_some : orElseO (some x) b = some x := rfl

theorem orElseO_none : orElseO none b = b := rfl

theorem parent_of_root (hw : IsTree h p t) (hr : t.rootId = some rt) :
    rb_parent h rt = p := by
  cases t with
  | nil => simp [Rbt.rootId] at hr
  | node c l i v r =>
    simp [Rbt.rootId] at hr
    subst hr
    exact rb_parent_of hw

/-- Decomposition of the no-duplicate-ids hypothesis at a node. -/
theorem nodup_node (hnd : (Rbt.node c l i v r).ids.Nodup) :
    l.ids.Nodup ∧ r.ids.Nodup ∧ i ∉ l.ids ∧ i ∉ r.ids ∧ ∀ x ∈ l.ids, x ∉ r.ids := by
  rw [Rbt.ids_node] at hnd
  rw [List.nodup_append] at hnd
  obtain ⟨h1, h2, h3⟩ := hnd
  rw [List.nodup_cons] at h2
  refine ⟨h1, h2.2, ?_, h2.1, ?_⟩
  · intro hc
    exact h3 hc (List.mem_cons_self i r.ids)
  · intro x hx hc
    exact h3 hx (List.mem_cons_of_mem i hc)

/-- `rb_next` on any member of a represented tree with distinct ids yields the
in-order successor within the tree, or the exit value `e` of the climb that
leaves the subtree past its maximum. -/
theorem next_aux (hw : IsTree h p t) (hr : t.rootId = some rt) (hnd : t.ids.Nodup)
    (hnp : ∀ j, p = some j → j ∉ t.ids)
    (He : ∀ f, N ≤ f → nextClimb h f rt = some e) :
    ∀ n ∈ t.ids, ∀ fuel, t.size + N ≤ fuel →
      rb_next h fuel (some n) = some (orElseO (listSucc t.ids n) e) := by
  induction t generalizing p rt N e with
  | nil => intro n hn; simp [Rbt.ids, Rbt.inorder] at hn
  | node c l i v r ihl ihr =>
    simp [Rbt.rootId] at hr
    subst hr
    obtain ⟨hndl, hndr, hil, hir, hdisj⟩ := nodup_node hnd
    intro n hn fuel hfuel
    rw [Rbt.ids_node] at hn
    rcases List.mem_append.mp hn with hnl | hnir
    · -- n in the left subtree
      have hrl : ∃ rl, l.rootId = some rl := by
        cases l with
        | nil => simp [Rbt.ids, Rbt.inorder] at hnl
        | node c2 l2 i2 v2 r2 => exact ⟨i2, rfl⟩
      obtain ⟨rl, hrl⟩ := hrl
      have hel : ∀ f, 1 ≤ f → nextClimb h f rl = some (some i) := by
        intro f hf
        obtain ⟨f, rfl⟩ : ∃ g, f = g + 1 := ⟨f - 1, by omega⟩
        rw [nextClimb, parent_of_root hw.left_of hrl]
        have : rb_right h i ≠ some rl := by
          rw [rb_right_of hw]
          intro hc
          have : rl ∈ r.ids := Rbt.rootId_mem hc
          exact hdisj rl (Rbt.rootId_mem hrl) this
        simp [this]
      have := ihl hw.left_of hrl hndl
        (by intro j hj; cases hj; exact hil) hel n hnl fuel
        (by simp [Rbt.size] at hfuel ⊢; omega)
      rw [this]
      rw [Rbt.ids_node, listSucc_append_left hnl]
      cases hls : listSucc l.ids n with
      | some m => simp [orElseO]
      | none => simp [orElseO]
    · -- n = i or n in the right subtree
      rcases List.mem_cons.mp hnir with hni | hnr
      · subst hni
        have hpne : rb_parent h n ≠ some n := by
          rw [rb_parent_of hw]
          intro hc
          exact (hnp n hc) (by rw [Rbt.ids_node]; exact hn)
        have hdisc : rb_is_disconnected h n = false := by
          rw [rb_is_disconnected]
          simp [hpne]
        rw [rb_next, hdisc]
        simp only [Bool.false_eq_true, if_false]
        rw [rb_right_of hw]
        cases hrr : r.rootId with
        | none =>
          have hre : r.ids = [] := Rbt.ids_eq_nil hrr
          rw [Rbt.ids_node, listSucc_self_head hil, hre]
          simp only [List.head?_nil, orElseO_none]
          exact He fuel (by simp [Rbt.size] at hfuel; omega)
        | some rr =>
          have hfr : r.size ≤ fuel := by simp [Rbt.size] at hfuel; omega
          show Option.map some (__rb_first h fuel rr) = _
          rw [first_spec hw.right_of hrr hfr]
          rw [Rbt.ids_node, listSucc_self_head hil]
          cases hcr : r.ids with
          | nil =>
            have := Rbt.rootId_mem hrr
            rw [hcr] at this
            simp at this
          | cons a rest => simp [orElseO]
      · -- n in the right subtree
        have hrr : ∃ rr, r.rootId = some rr := by
          cases r with
          | nil => simp [Rbt.ids, Rbt.inorder] at hnr
          | node c2 l2 i2 v2 r2 => exact ⟨i2, rfl⟩
        obtain ⟨rr, hrr⟩ := hrr
        have her : ∀ f, N + 1 ≤ f → nextClimb h f rr = some e := by
          intro f hf
          obtain ⟨f, rfl⟩ : ∃ g, f = g + 1 := ⟨f - 1, by omega⟩
          rw [nextClimb, parent_of_root hw.right_of hrr]
          have : rb_right h i = some rr := by rw [rb_right_of hw, hrr]
          simp only [this, if_pos rfl]
          exact He f (by omega)
        have hnil : n ∉ l.ids := fun hc => hdisj n hc hnr
        have hnii : n ≠ i := by
          intro hc
          subst hc
          exact hir hnr
        have := ihr hw.right_of hrr hndr
          (by intro j hj; cases hj; exact hir) her n hnr fuel
          (by simp [Rbt.size] at hfuel ⊢; omega)
        rw [this]
        rw [Rbt.ids_node, listSucc_append_not_left hnil, listSucc_cons_ne hnii]

/-- `rb_next` on a member of a globally represented tree yields the in-order
successor, and null past the maximum. -/
theorem rb_next_spec (hw : IsTree h none t) (hr : t.rootId = some rt)
    (hnd : t.ids.Nodup) (hn : n ∈ t.ids) (hfuel : t.size + 1 ≤ fuel) :
    rb_next h fuel (some n) = some (listSucc t.ids n) := by
  have He : ∀ f, 1 ≤ f → nextClimb h f rt = some none := by
    intro f hf
    obtain ⟨f, rfl⟩ : ∃ g, f = g + 1 := ⟨f - 1, by omega⟩
    rw [nextClimb, parent_of_root hw hr]
  have := next_aux hw hr hnd (by intro j hj; cases hj) He n hn fuel hfuel
  rw [this]
  cases listSucc t.ids n with
  | some m => rfl
  | none => rfl

theorem hget_hmirror (h : Heap α) (i : Nat) :
    hget (hmirror h) i = (hget h i).map NodeRec.mirror := by
  induction h with
  | nil => rfl
  | cons a rest ih =>
    show hget ((a.1, a.2.mirror) :: hmirror rest) i = _
    rw [hget, hget]
    by_cases hc : i = a.1
    · simp [hc]
    · simp [hc, ih]

theorem rb_left_hmirror (h : Heap α) (n : Nat) : rb_left (hmirror h) n = rb_right h n := by
  rw [rb_left, rb_right, hget_hmirror]
  cases hget h n with
  | none => rfl
  | some r => rfl

theorem rb_right_hmirror (h : Heap α) (n : Nat) : rb_right (hmirror h) n = rb_left h n := by
  rw [rb_left, rb_right, hget_hmirror]
  cases hget h n with
  | none => rfl
  | some r => rfl

theorem rb_parent_hmirror (h : Heap α) (n : Nat) : rb_parent (hmirror h) n = rb_parent h n := by
  rw [rb_parent, rb_parent, hget_hmirror]
  cases hget h n with
  | none => rfl
  | some r => rfl

theorem rb_is_disconnected_hmirror (h : Heap α) (n : Nat) :
    rb_is_disconnected (hmirror h) n = rb_is_disconnected h n := by
  rw [rb_is_disconnected, rb_is_disconnected, rb_parent_hmirror, rb_left_hmirror,
    rb_right_hmirror]
  cases rb_parent h n <;> cases rb_left h n <;> cases rb_right h n <;>
    simp [Bool.and_comm, Bool.and_assoc, Bool.and_left_comm]

theorem __rb_first_hmirror (h : Heap α) :
    ∀ fuel n, __rb_first (hmirror h) fuel n = __rb_last h fuel n := by
  intro fuel
  induction fuel with
  | zero => intro n; rfl
  | succ f ih =>
    intro n
    rw [__rb_first, __rb_last, rb_left_hmirror]
    cases rb_right h n with
    | none => rfl
    | some m => exact ih m

theorem nextClimb_hmirror (h : Heap α) :
    ∀ fuel n, nextClimb (hmirror h) fuel n = prevClimb h fuel n := by
  intro fuel
  induction fuel with
  | zero => intro n; rfl
  | succ f ih =>
    intro n
    rw [nextClimb, prevClimb, rb_parent_hmirror]
    cases rb_parent h n with
    | none => rfl
    | some p =>
      show (if rb_right (hmirror h) p = some n then nextClimb (hmirror h) f p
          else some (some p)) =
        (if rb_left h p = some n then prevClimb h f p else some (some p))
      rw [rb_right_hmirror]
      by_cases hc : rb_left h p = some n
      · simp [hc, ih]
      · simp [hc]

/-- `rb_prev` is `rb_next` run on the child-swapped heap. -/
theorem rb_prev_eq_next_hmirror (h : Heap α) (fuel : Nat) (node : Option Nat) :
    rb_prev h fuel node = rb_next (hmirror h) fuel node := by
  cases node with
  | none => rfl
  | some n =>
    rw [rb_prev, rb_next, rb_is_disconnected_hmirror]
    by_cases hd : rb_is_disconnected h n
    · simp [hd]
    · simp only [hd, Bool.false_eq_true, if_false]
      rw [rb_right_hmirror]
      cases rb_left h n with
      | none => rw [nextClimb_hmirror]
      | some l =>
        show Option.map some (__rb_last h fuel l) =
          Option.map some (__rb_first (hmirror h) fuel l)
        rw [__rb_first_hmirror]

theorem Rbt.rootId_mirror (t : Rbt α) : t.mirror.rootId = t.rootId := by
  cases t <;> rfl

theorem Rbt.size_mirror (t : Rbt α) : t.mirror.size = t.size := by
  induction t with
  | nil => rfl
  | node c l i v r ihl ihr => simp [Rbt.mirror, Rbt.size, ihl, ihr]; omega

theorem Rbt.inorder_mirror (t : Rbt α) : t.mirror.inorder = t.inorder.reverse := by
  induction t with
  | nil => rfl
  | node c l i v r ihl ihr => simp [Rbt.mirror, Rbt.inorder, ihl, ihr]

theorem Rbt.ids_mirror (t : Rbt α) : t.mirror.ids = t.ids.reverse := by
  rw [Rbt.ids, Rbt.ids, Rbt.inorder_mirror, List.map_reverse]

theorem IsTree.hmirror_of (hw : IsTree h p t) : IsTree (hmirror h) p t.mirror := by
  induction hw with
  | nil => exact IsTree.nil _
  | node p c l i v r hg hl hr ihl ihr =>
    refine IsTree.node p c r.mirror i v l.mirror ?_ ihr ihl
    rw [hget_hmirror, hg]
    simp [NodeRec.mirror, Rbt.rootId_mirror]

/-- `rb_prev` on a member of a represented tree yields the in-order
predecessor, null before the minimum. -/
theorem rb_prev_spec (hw : IsTree h none t) (hr : t.rootId = some rt)
    (hnd : t.ids.Nodup) (hn : n ∈ t.ids) (hfuel : t.size + 1 ≤ fuel) :
    rb_prev h fuel (some n) = some (listSucc t.ids.reverse n) := by
  rw [rb_prev_eq_next_hmirror]
  have h1 : t.mirror.rootId = some rt := by rw [Rbt.rootId_mirror]; exact hr
  have h2 : t.mirror.ids.Nodup := by
    rw [Rbt.ids_mirror]; exact List.nodup_reverse.mpr hnd
  have h3 : n ∈ t.mirror.ids := by rw [Rbt.ids_mirror]; exact List.mem_reverse.mpr hn
  have h4 : t.mirror.size + 1 ≤ fuel := by rw [Rbt.size_mirror]; exact hfuel
  have := rb_next_spec hw.hmirror_of h1 h2 h3 h4
  rw [this, Rbt.ids_mirror]

/-- C10: `rb_next` and `rb_prev` return null for a node in the disconnected
state (parent link pointing to itself, both children absent) instead of
following the self-referential parent link. -/
theorem c10_next_prev_disconnected (h : Heap α) (n fuel : Nat)
    (hd : rb_is_disconnected h n = true) :
    rb_next h fuel (some n) = some none ∧ rb_prev h fuel (some n) = some none := by
  rw [rb_next, rb_prev, hd]
  simp

/-- Witness for C10 at a concrete one-node heap. -/
theorem c10_next_prev_disconnected_witness :
    rb_is_disconnected [(5, (⟨some 5, .red, none, none, (7 : Int)⟩ : NodeRec Int))] 5 = true ∧
      rb_next [(5, (⟨some 5, .red, none, none, (7 : Int)⟩ : NodeRec Int))] 3 (some 5) =
        some none := by
  refine ⟨by decide, ?_⟩
  exact (c10_next_prev_disconnected _ 5 3 (by decide)).1

theorem CmpOk.le_iff {cmp : α → α → Int} (hc : CmpOk cmp) (a b : α) : cmp a b ≤ 0 ↔ 0 ≤ cmp b a := by
  constructor
  · intro hab
    by_contra hba
    push_neg at hba
    have := (hc.asym b a).mp hba
    omega
  · intro hba
    by_contra hab
    push_neg at hab
    have := (hc.asym b a).mpr hab
    omega

theorem CmpOk.refl_zero {cmp : α → α → Int} (hc : CmpOk cmp) (a : α) : cmp a a = 0 := by
  have := hc.asym a a
  omega

theorem bstOkB_node {cmp : α → α → Int} (hb : bstOkB cmp (Rbt.node c l i v r) = true) :
    (∀ x ∈ l.vals, cmp x v ≤ 0) ∧ (∀ x ∈ r.vals, 0 ≤ cmp x v) ∧
      bstOkB cmp l = true ∧ bstOkB cmp r = true := by
  rw [bstOkB] at hb
  simp only [Bool.and_eq_true, List.all_eq_true, decide_eq_true_eq] at hb
  exact ⟨hb.1.1.1, hb.1.1.2, hb.1.2, hb.2⟩

theorem isTreeB_sound [DecidableEq α] {h : Heap α} {p : Option Nat} {t : Rbt α}
    (hb : isTreeB h p t = true) : IsTree h p t := by
  induction t generalizing p with
  | nil => exact IsTree.nil p
  | node c l i v r ihl ihr =>
    rw [isTreeB] at hb
    simp only [Bool.and_eq_true, beq_iff_eq] at hb
    exact IsTree.node p c l i v r hb.1.1 (ihl hb.1.2) (ihr hb.2)

theorem Rbt.depthOf_isSome_iff_mem (t : Rbt α) (n : Nat) :
    (t.depthOf n).isSome ↔ n ∈ t.ids := by
  induction t with
  | nil => simp [Rbt.depthOf, Rbt.ids, Rbt.inorder]
  | node c l i v r ihl ihr =>
    rw [Rbt.depthOf, Rbt.ids_node]
    by_cases hni : n = i
    · simp [hni]
    · simp only [hni, if_false]
      cases hdl : l.depthOf n with
      | some d =>
        have : n ∈ l.ids := ihl.mp (by rw [hdl]; rfl)
        simp [this]
      | none =>
        have hnl : n ∉ l.ids := fun hc => by
          have := ihl.mpr hc
          rw [hdl] at this
          exact absurd this (by simp)
        cases hdr : r.depthOf n with
        | some d =>
          have : n ∈ r.ids := ihr.mp (by rw [hdr]; rfl)
          simp [this]
        | none =>
          have hnr : n ∉ r.ids := fun hc => by
            have := ihr.mpr hc
            rw [hdr] at this
            exact absurd this (by simp)
          simp [hnl, hnr, hni]

/-- `__rb_find` refines `findT` on represented trees. -/
theorem __rb_find_spec {cmp : α → α → Int} {key : α} (hw : IsTree h p t)
    (hfuel : t.size + 1 ≤ fuel) :
    __rb_find h cmp key fuel t.rootId = some (findT cmp key t) := by
  induction t generalizing p fuel with
  | nil =>
    cases fuel with
    | zero => rfl
    | succ f => rfl
  | node c l i v r ihl ihr =>
    obtain ⟨fuel, rfl⟩ : ∃ f, fuel = f + 1 := ⟨fuel - 1, by omega⟩
    show __rb_find h cmp key (fuel + 1) (some i) = some (findT cmp key (Rbt.node c l i v r))
    rw [__rb_find, findT]
    have hv : hget h i = some ⟨p, c, l.rootId, r.rootId, v⟩ := hw.get_of
    rw [hv]
    by_cases hlt : cmp key v < 0
    · simp only [hlt, if_pos]
      rw [rb_left_of hw]
      exact ihl hw.left_of (by simp [Rbt.size] at hfuel; omega)
    · by_cases heq : cmp key v = 0
      · simp [hlt, heq]
      · simp only [hlt, heq, if_false]
        rw [rb_right_of hw]
        exact ihr hw.right_of (by simp [Rbt.size] at hfuel; omega)

theorem Rbt.mem_vals_of_mem_inorder {t : Rbt α} (hm : (m, mv) ∈ t.inorder) :
    mv ∈ t.vals := by
  rw [Rbt.vals]
  exact List.mem_map_of_mem Prod.snd hm

theorem Rbt.mem_ids_of_mem_inorder {t : Rbt α} (hm : (m, mv) ∈ t.inorder) :
    m ∈ t.ids := by
  rw [Rbt.ids]
  exact List.mem_map_of_mem Prod.fst hm

theorem Rbt.depthOf_left (hni : n ≠ i) (hnl : n ∈ l.ids) :
    (Rbt.node c l i v r).depthOf n = (l.depthOf n).map (· + 1) := by
  rw [Rbt.depthOf]
  simp only [hni, if_false]
  cases hdl : l.depthOf n with
  | some d => rfl
  | none =>
    have := (Rbt.depthOf_isSome_iff_mem l n).mpr hnl
    rw [hdl] at this
    exact absurd this (by simp)

theorem Rbt.depthOf_right (hni : n ≠ i) (hnl : n ∉ l.ids) (hnr : n ∈ r.ids) :
    (Rbt.node c l i v r).depthOf n = (r.depthOf n).map (· + 1) := by
  rw [Rbt.depthOf]
  simp only [hni, if_false]
  cases hdl : l.depthOf n with
  | some d =>
    have : n ∈ l.ids := (Rbt.depthOf_isSome_iff_mem l n).mp (by rw [hdl]; rfl)
    exact absurd this hnl
  | none =>
    cases hdr : r.depthOf n with
    | some d => rfl
    | none =>
      have := (Rbt.depthOf_isSome_iff_mem r n).mpr hnr
      rw [hdr] at this
      exact absurd this (by simp)

/-- All nodes whose payload compares equal to `key` live on the retained side
of every descent step, so `findT` finds one iff one exists, and the one it
finds is depth-minimal among them. -/
theorem findT_props {cmp : α → α → Int} (key : α) (hc : CmpOk cmp)
    (hb : bstOkB cmp t = true) (hnd : t.ids.Nodup) :
    (∀ i, findT cmp key t = some i →
      ∃ v, (i, v) ∈ t.inorder ∧ cmp key v = 0) ∧
    (findT cmp key t = none → ∀ pr ∈ t.inorder, cmp key pr.2 ≠ 0) ∧
    (∀ i, findT cmp key t = some i → ∀ m mv, (m, mv) ∈ t.inorder → cmp key mv = 0 →
      ∃ di dm, t.depthOf i = some di ∧ t.depthOf m = some dm ∧ di ≤ dm) := by
  induction t with
  | nil =>
    refine ⟨fun i hi => by simp [findT] at hi, fun _ pr hpr => by
      simp [Rbt.inorder] at hpr, fun i hi => by simp [findT] at hi⟩
  | node c l i v r ihl ihr =>
    obtain ⟨hbl, hbr, hl, hr⟩ := bstOkB_node hb
    obtain ⟨hndl, hndr, hil, hir, hdisj⟩ := nodup_node hnd
    obtain ⟨ihl1, ihl2, ihl3⟩ := ihl hl hndl
    obtain ⟨ihr1, ihr2, ihr3⟩ := ihr hr hndr
    by_cases hlt : cmp key v < 0
    · -- descend left: all equal payloads are in the left subtree
      have hnotright : ∀ m mv, (m, mv) ∈ r.inorder → cmp key mv ≠ 0 := by
        intro m mv hm
        have h1 : 0 ≤ cmp mv v := hbr mv (Rbt.mem_vals_of_mem_inorder hm)
        have h2 : cmp v mv ≤ 0 := (hc.le_iff v mv).mpr h1
        have := hc.lt_of_lt_of_le key v mv hlt h2
        omega
      have hnoteq : cmp key v ≠ 0 := by omega
      have hfind : findT cmp key (Rbt.node c l i v r) = findT cmp key l := by
        rw [findT, if_pos hlt]
      refine ⟨?_, ?_, ?_⟩
      · intro j hj
        rw [hfind] at hj
        obtain ⟨w, hw1, hw2⟩ := ihl1 j hj
        exact ⟨w, by simp [Rbt.inorder, hw1], hw2⟩
      · intro hn pr hpr
        rw [hfind] at hn
        rw [Rbt.inorder] at hpr
        rcases List.mem_append.mp hpr with hprl | hprir
        · exact ihl2 hn pr hprl
        · rcases List.mem_cons.mp hprir with hpri | hprr
          · rw [hpri]
            exact hnoteq
          · exact hnotright pr.1 pr.2 hprr
      · intro j hj m mv hm hmv
        rw [hfind] at hj
        obtain ⟨w, hwmem, _⟩ := ihl1 j hj
        have hjl : j ∈ l.ids := Rbt.mem_ids_of_mem_inorder hwmem
        have hji : j ≠ i := fun hc2 => hil (hc2 ▸ hjl)
        rw [Rbt.inorder] at hm
        rcases List.mem_append.mp hm with hml | hmir
        · obtain ⟨di, dm, hdi, hdm, hle⟩ := ihl3 j hj m mv hml hmv
          have hml' : m ∈ l.ids := Rbt.mem_ids_of_mem_inorder hml
          have hmi : m ≠ i := fun hc2 => hil (hc2 ▸ hml')
          refine ⟨di + 1, dm + 1, ?_, ?_, by omega⟩
          · rw [Rbt.depthOf_left hji hjl, hdi]
            rfl
          · rw [Rbt.depthOf_left hmi hml', hdm]
            rfl
        · rcases List.mem_cons.mp hmir with hmi | hmr
          · have : mv = v := congrArg Prod.snd hmi
            rw [this] at hmv
            exact absurd hmv hnoteq
          · exact absurd hmv (hnotright m mv hmr)
    · by_cases heq : cmp key v = 0
      · -- stop here: depth 0 is minimal
        have hfind : findT cmp key (Rbt.node c l i v r) = some i := by
          rw [findT, if_neg hlt, if_pos heq]
        refine ⟨?_, ?_, ?_⟩
        · intro j hj
          rw [hfind] at hj
          cases hj
          exact ⟨v, by simp [Rbt.inorder], heq⟩
        · intro hn
          rw [hfind] at hn
          cases hn
        · intro j hj m mv hm hmv
          rw [hfind] at hj
          have hji : j = i := by
            injection hj with hji2
            exact hji2.symm
          subst hji
          have hmm : m ∈ (Rbt.node c l j v r).ids :=
            Rbt.mem_ids_of_mem_inorder hm
          obtain ⟨dm, hdm⟩ := Option.isSome_iff_exists.mp
            ((Rbt.depthOf_isSome_iff_mem _ m).mpr hmm)
          refine ⟨0, dm, ?_, hdm, by omega⟩
          rw [Rbt.depthOf]
          simp
      · -- descend right: all equal payloads are in the right subtree
        have hgt : 0 < cmp key v := by omega
        have hnotleft : ∀ m mv, (m, mv) ∈ l.inorder → cmp key mv ≠ 0 := by
          intro m mv hm
          have h1 : cmp mv v ≤ 0 := hbl mv (Rbt.mem_vals_of_mem_inorder hm)
          have h2 : cmp v key < 0 := (hc.asym v key).mpr hgt
          have h3 : cmp mv key < 0 := hc.lt_of_le_of_lt mv v key h1 h2
          have := (hc.asym mv key).mp h3
          omega
        have hfind : findT cmp key (Rbt.node c l i v r) = findT cmp key r := by
          rw [findT, if_neg hlt, if_neg heq]
        refine ⟨?_, ?_, ?_⟩
        · intro j hj
          rw [hfind] at hj
          obtain ⟨w, hw1, hw2⟩ := ihr1 j hj
          exact ⟨w, by simp [Rbt.inorder, hw1], hw2⟩
        · intro hn pr hpr
          rw [hfind] at hn
          rw [Rbt.inorder] at hpr
          rcases List.mem_append.mp hpr with hprl | hprir
          · exact hnotleft pr.1 pr.2 hprl
          · rcases List.mem_cons.mp hprir with hpri | hprr
            · rw [hpri]
              exact heq
            · exact ihr2 hn pr hprr
        · intro j hj m mv hm hmv
          rw [hfind] at hj
          obtain ⟨w, hwmem, _⟩ := ihr1 j hj
          have hjr : j ∈ r.ids := Rbt.mem_ids_of_mem_inorder hwmem
          have hji : j ≠ i := fun hc2 => hir (hc2 ▸ hjr)
          have hjl : j ∉ l.ids := fun hc2 => hdisj j hc2 hjr
          rw [Rbt.inorder] at hm
          rcases List.mem_append.mp hm with hml | hmir
          · exact absurd hmv (hnotleft m mv hml)
          · rcases List.mem_cons.mp hmir with hmi | hmr
            · have : mv = v := congrArg Prod.snd hmi
              rw [this] at hmv
              exact absurd hmv heq
            · obtain ⟨di, dm, hdi, hdm, hle⟩ := ihr3 j hj m mv hmr hmv
              have hmr' : m ∈ r.ids := Rbt.mem_ids_of_mem_inorder hmr
              have hmi : m ≠ i := fun hc2 => hir (hc2 ▸ hmr')
              have hmnl : m ∉ l.ids := fun hc2 => hdisj m hc2 hmr'
              refine ⟨di + 1, dm + 1, ?_, ?_, by omega⟩
              · rw [Rbt.depthOf_right hji hjl hjr, hdi]
                rfl
              · rw [Rbt.depthOf_right hmi hmnl hmr', hdm]
                rfl

theorem icmpOk : CmpOk icmp := by
  constructor <;> (intro a b; try intro c) <;> simp [icmp] <;> omega

/-- C6: `rb_find` descends from the root going left on a negative comparison,
stopping on zero, and going right on positive (it refines `findT`, which is
that descent); the node returned compares equal to the key and is the
shallowest such node; and the result is absent exactly when no node compares
equal. -/
theorem c6_find_descends_shallowest {cmp : α → α → Int} (key : α) (fuel : Nat)
    (hc : CmpOk cmp) (hw : IsTree h none t) (hb : bstOkB cmp t = true)
    (hnd : t.ids.Nodup) (hfuel : t.size + 1 ≤ fuel) :
    rb_find h ⟨t.rootId⟩ key cmp fuel = some (findT cmp key t) ∧
    (∀ i, findT cmp key t = some i →
      ∃ v, (i, v) ∈ t.inorder ∧ cmp key v = 0) ∧
    (∀ i, findT cmp key t = some i → ∀ m mv, (m, mv) ∈ t.inorder → cmp key mv = 0 →
      ∃ di dm, t.depthOf i = some di ∧ t.depthOf m = some dm ∧ di ≤ dm) ∧
    (findT cmp key t = none → ∀ pr ∈ t.inorder, cmp key pr.2 ≠ 0) := by
  obtain ⟨p1, p2, p3⟩ := findT_props key hc hb hnd
  exact ⟨__rb_find_spec hw hfuel, p1, p3, p2⟩

/-- Witness for C6 on a tree with a duplicate key: the shallower equal node
(the root, id 0) is returned, not the deeper id 1. -/
theorem c6_find_descends_shallowest_witness :
    rb_find w6h ⟨w6t.rootId⟩ 5 icmp 4 = some (some 0) ∧ findT icmp 5 w6t = some 0 := by
  have hmain := c6_find_descends_shallowest 5 4 icmpOk
    (isTreeB_sound (by decide : isTreeB w6h none w6t = true)) (by decide) (by decide)
    (by decide)
  refine ⟨?_, by decide⟩
  rw [hmain.1]
  decide

/-- C9: deleting a key that matches nothing is a successful no-op: the find
step yields an absent iterator, the `RB_NULL_CHECK(target)` guard returns,
and the heap and the tree are returned unchanged, so every node's links and
colors are unchanged and the invariants continue to hold. -/
theorem c9_delete_missing_noop {cmp : α → α → Int} (key : α) (fuel : Nat)
    (hc : CmpOk cmp) (hw : IsTree h none t) (hb : bstOkB cmp t = true)
    (hnd : t.ids.Nodup) (hfuel : t.size + 1 ≤ fuel)
    (habsent : ∀ pr ∈ t.inorder, cmp key pr.2 ≠ 0) :
    rb_tree_delete h ⟨t.rootId⟩ key cmp fuel = some (h, ⟨t.rootId⟩) := by
  obtain ⟨p1, _, _⟩ := findT_props key hc hb hnd
  have hnone : findT cmp key t = none := by
    cases hfind : findT cmp key t with
    | none => rfl
    | some i =>
      obtain ⟨v, hv1, hv2⟩ := p1 i hfind
      exact absurd hv2 (habsent (i, v) hv1)
  rw [rb_tree_delete, rb_find, __rb_find_spec hw hfuel, hnone]

/-- Witness for C9: deleting key 6 from the three-node tree is a no-op. -/
theorem c9_delete_missing_noop_witness :
    rb_tree_delete w6h ⟨w6t.rootId⟩ 6 icmp 4 = some (w6h, ⟨w6t.rootId⟩) :=
  c9_delete_missing_noop 6 4 icmpOk
    (isTreeB_sound (by decide : isTreeB w6h none w6t = true)) (by decide) (by decide)
    (by decide) (by decide)

/-- C2: the cached minimum does not track the leftmost node.  After inserting
keys 1 and 0 into an lcached tree and deleting key 1 (distinct keys, public
API only), the tree still holds one node (id 0, the leftmost) but the min
cache points to id 1, which that very delete left disconnected — the
copy-based delete physically unlinked the node the cache was advanced to.
And already on a tie insert (keys 1, 1) the cache points at the new node
(id 1) while the leftmost is id 0. -/
theorem c2_lcached_min_cache_bug :
    (c2run.map fun p => (p.2.root, p.2.min)) = some (some 0, some 1) ∧
    (c2run.map fun p => rb_is_disconnected p.1 1) = some true ∧
    (c2run.map fun p => rb_first p.1 ⟨p.2.root⟩ 20) = some (some (some 0)) ∧
    (c2brun.map fun p => (p.2.root, p.2.min)) = some (some 0, some 1) ∧
    (c2brun.map fun p => rb_first p.1 ⟨p.2.root⟩ 20) = some (some (some 0)) := by
  decide

/-- C4: `rb_tree_delete_at` at a node with only a right child returns that
child (the pre-removal `rb_next`), but the same call physically unlinks it:
the returned value is a disconnected node, not an iterator to the in-order
successor of the removed position (which is id 0, now carrying payload 1). -/
theorem c4_delete_at_returns_unlinked_node :
    (c4run.map fun p => p.2.2) = some (some 1) ∧
    (c4run.map fun p => rb_is_disconnected p.1 1) = some true ∧
    (c4run.map fun p => p.2.1.root) = some (some 0) ∧
    (c4run.map fun p => (hget p.1 0).map NodeRec.val) = some (some 1) := by
  decide

/-!
## Allocation preservation

Every mutator only rewrites records of already-present nodes, so which nodes
are present never changes.
-/
theorem hget_hup_isSome_eq {h : Heap α} (hj : hget h j = some rj) (r : NodeRec α) :
    (hget (hup h j r) x).isSome = (hget h x).isSome := by
  show (hget ((j, r) :: h) x).isSome = _
  rw [hget]
  by_cases hc : x = j
  · subst hc
    simp [hj]
  · simp [hc]

@[simp] theorem hget_isSome_set_black (h : Heap α) (n : Option Nat) :
    (hget (__rb_set_black h n) x).isSome = (hget h x).isSome := by
  cases n with
  | none => rfl
  | some i =>
    show (hget (match hget h i with
      | some r => hup h i { r with color := .black }
      | none => h) x).isSome = _
    cases hh : hget h i with
    | none => rfl
    | some r => exact hget_hup_isSome_eq hh _

@[simp] theorem hget_isSome_set_red (h : Heap α) (n : Option Nat) :
    (hget (__rb_set_red h n) x).isSome = (hget h x).isSome := by
  cases n with
  | none => rfl
  | some i =>
    show (hget (match hget h i with
      | some r => hup h i { r with color := .red }
      | none => h) x).isSome = _
    cases hh : hget h i with
    | none => rfl
    | some r => exact hget_hup_isSome_eq hh _

@[simp] theorem hget_isSome_set_color (h : Heap α) (n : Option Nat) (c : Color) :
    (hget (__rb_set_color h n c) x).isSome = (hget h x).isSome := by
  unfold __rb_set_color
  by_cases hc : c = Color.black <;> simp [hc]

@[simp] theorem hget_isSome_swap_colors (h : Heap α) (a b : Option Nat) :
    (hget (__rb_swap_colors h a b) x).isSome = (hget h x).isSome := by
  unfold __rb_swap_colors
  simp

@[simp] theorem hget_isSome_set_parent (h : Heap α) (n p : Option Nat) :
    (hget (__rb_set_parent h n p) x).isSome = (hget h x).isSome := by
  cases n with
  | none => rfl
  | some i =>
    show (hget (match hget h i with
      | some r => hup h i { r with parent := p }
      | none => h) x).isSome = _
    cases hh : hget h i with
    | none => rfl
    | some r => exact hget_hup_isSome_eq hh _

@[simp] theorem hget_isSome_setLeft (h : Heap α) (n v : Option Nat) :
    (hget (setLeft h n v) x).isSome = (hget h x).isSome := by
  cases n with
  | none => rfl
  | some i =>
    show (hget (match hget h i with
      | some r => hup h i { r with left := v }
      | none => h) x).isSome = _
    cases hh : hget h i with
    | none => rfl
    | some r => exact hget_hup_isSome_eq hh _

@[simp] theorem hget_isSome_setRight (h : Heap α) (n v : Option Nat) :
    (hget (setRight h n v) x).isSome = (hget h x).isSome := by
  cases n with
  | none => rfl
  | some i =>
    show (hget (match hget h i with
      | some r => hup h i { r with right := v }
      | none => h) x).isSome = _
    cases hh : hget h i with
    | none => rfl
    | some r => exact hget_hup_isSome_eq hh _

@[simp] theorem hget_isSome_replace_child (h : Heap α) (root old nw : Option Nat) :
    (hget (__rb_replace_child h root old nw) x).isSome = (hget h x).isSome := by
  unfold __rb_replace_child
  cases root with
  | none => simp
  | some ri =>
    by_cases h1 : rb_left h ri = old
    · simp [h1]
    · by_cases h2 : rb_right h ri = old <;> simp [h1, h2]

@[simp] theorem hget_isSome_left_rotate (h : Heap α) (n : Nat) :
    (hget (__rb_left_rotate h n) x).isSome = (hget h x).isSome := by
  unfold __rb_left_rotate
  simp

@[simp] theorem hget_isSome_right_rotate (h : Heap α) (n : Nat) :
    (hget (__rb_right_rotate h n) x).isSome = (hget h x).isSome := by
  unfold __rb_right_rotate
  simp

@[simp] theorem hget_isSome_rotL (h : Heap α) (n : Option Nat) :
    (hget (rotL h n) x).isSome = (hget h x).isSome := by
  cases n with
  | none => rfl
  | some i => simp [rotL]

@[simp] theorem hget_isSome_rotR (h : Heap α) (n : Option Nat) :
    (hget (rotR h n) x).isSome = (hget h x).isSome := by
  cases n with
  | none => rfl
  | some i => simp [rotR]

@[simp] theorem hget_isSome_copyVal (h : Heap α) (s d : Nat) :
    (hget (copyVal h s d) x).isSome = (hget h x).isSome := by
  unfold copyVal
  cases hs : hget h s with
  | none => rfl
  | some rs =>
    cases hd : hget h d with
    | none => rfl
    | some rd => exact hget_hup_isSome_eq hd _

@[simp] theorem hget_isSome_disconnect (h : Heap α) (n : Nat) :
    (hget (rb_disconnect h n) x).isSome = (hget h x).isSome := by
  unfold rb_disconnect
  cases hh : hget h n with
  | none => rfl
  | some r => exact hget_hup_isSome_eq hh _

theorem hget_isSome_delete_rebalance :
    ∀ fuel (h h' : Heap α) n, __rb_delete_rebalance fuel h n = some h' →
      (hget h' x).isSome = (hget h x).isSome := by
  intro fuel
  induction fuel with
  | zero => intro h h' n hrun; exact absurd hrun (by simp [__rb_delete_rebalance])
  | succ f ih =>
    intro h h' n hrun
    rw [__rb_delete_rebalance] at hrun
    rcases hp : rb_parent h n with _ | parent <;> rw [hp] at hrun <;>
      dsimp only at hrun
    · injection hrun with he
      subst he
      simp
    · repeat' split at hrun
      all_goals
        first
        | (injection hrun with he
           subst he
           simp)
        | (rw [ih _ _ _ hrun]
           simp)

theorem hget_hup_self (h : Heap α) (i : Nat) (r : NodeRec α) :
    hget (hup h i r) i = some r := by
  show hget ((i, r) :: h) i = some r
  rw [hget]
  simp

theorem mem_ids_alloc (hw : IsTree h p t) (hn : n ∈ t.ids) : (hget h n).isSome := by
  induction t generalizing p with
  | nil => simp [Rbt.ids, Rbt.inorder] at hn
  | node c l i v r ihl ihr =>
    rw [Rbt.ids_node] at hn
    rcases List.mem_append.mp hn with hl | hir
    · exact ihl hw.left_of hl
    · rcases List.mem_cons.mp hir with hi | hr
      · subst hi
        rw [hw.get_of]
        rfl
      · exact ihr hw.right_of hr

theorem getLast?_mem' {xs : List Nat} (hx : xs.getLast? = some a) : a ∈ xs := by
  induction xs with
  | nil => simp at hx
  | cons b rest ih =>
    cases rest with
    | nil =>
      simp at hx
      simp [hx]
    | cons c rest2 =>
      rw [List.getLast?_cons_cons] at hx
      exact List.mem_cons_of_mem b (ih hx)

/-- `rb_disconnect` leaves an allocated node in the disconnected state. -/
theorem disconnect_state (hx : (hget h n).isSome) :
    rb_is_disconnected (rb_disconnect h n) n = true := by
  unfold rb_disconnect
  cases hh : hget h n with
  | none => rw [hh] at hx; exact absurd hx (by simp)
  | some r =>
    rw [rb_is_disconnected, rb_parent, rb_left, rb_right, hget_hup_self]
    simp

/-- `__rb_delete_node` leaves the spliced-out node disconnected. -/
theorem delete_node_disconnects (hx : (hget h n).isSome) :
    rb_is_disconnected (__rb_delete_node h n) n = true := by
  unfold __rb_delete_node
  apply disconnect_state
  simp [hx]

/-- `__rb_move_and_delete` disconnects the replacement when it exists. -/
theorem move_and_delete_disconnects_src (h : Heap α) (s d : Nat)
    (hx : (hget h s).isSome) :
    rb_is_disconnected (__rb_move_and_delete h (some s) d) s = true := by
  show rb_is_disconnected (__rb_delete_node (copyVal h s d) s) s = true
  apply delete_node_disconnects
  simp [hx]

/-- `__rb_move_and_delete` disconnects the target when there is no
replacement. -/
theorem move_and_delete_disconnects_tgt (h : Heap α) (d : Nat)
    (hx : (hget h d).isSome) :
    rb_is_disconnected (__rb_move_and_delete h none d) d = true :=
  delete_node_disconnects hx

/-- C3: the deletion replacement is the in-order predecessor for a node with
two children (the rightmost node of its left subtree), the sole child for a
node with one child, and absent for a leaf; the delete fix-up runs on the
pre-unlink heap, centered on the replacement when it exists and on the
target otherwise; and the physically unlinked node is left disconnected
(parent link to itself, both children absent). -/
theorem c3_delete_replacement_fixup_unlink {h : Heap α} {t : RbTree} {p : Option Nat}
    {c : Color} {l r : Rbt α} {n : Nat} {v : α} (fuel : Nat)
    (hw : IsTree h p (Rbt.node c l n v r))
    (hfuel : (Rbt.node c l n v r).size + 1 ≤ fuel) :
    (l.rootId.isSome → r.rootId.isSome →
      __rb_node_predecessor h fuel n = some l.ids.getLast?) ∧
    (r.rootId = none → __rb_node_predecessor h fuel n = some l.rootId) ∧
    (l.rootId = none → r.rootId.isSome →
      __rb_node_predecessor h fuel n = some r.rootId) ∧
    (∀ h2 t2 nx, rb_tree_delete_at h t n fuel = some (h2, t2, nx) →
      ∃ repl h1, __rb_node_predecessor h fuel n = some repl ∧
        __rb_delete_rebalance fuel h
          (match repl with | some x => x | none => n) = some h1 ∧
        h2 = __rb_move_and_delete h1 repl n ∧
        rb_is_disconnected h2 (match repl with | some x => x | none => n) = true) := by
  have hln : rb_left h n = l.rootId := rb_left_of hw
  have hrn : rb_right h n = r.rootId := rb_right_of hw
  have hsel1 : l.rootId.isSome → r.rootId.isSome →
      __rb_node_predecessor h fuel n = some l.ids.getLast? := by
    intro hls hrs
    obtain ⟨rl, hrl⟩ := Option.isSome_iff_exists.mp hls
    rw [__rb_node_predecessor, hln, hrn]
    rw [if_pos (by simp [hrl, hrs] : (l.rootId.isSome && r.rootId.isSome) = true)]
    rw [rb_prev]
    have hdisc : rb_is_disconnected h n = false := by
      rw [rb_is_disconnected, hln, hrl]
      simp
    rw [hdisc]
    simp only [Bool.false_eq_true, if_false]
    rw [hln, hrl]
    show Option.map some (__rb_last h fuel rl) = _
    have : l.size ≤ fuel := by simp [Rbt.size] at hfuel; omega
    rw [last_spec hw.left_of hrl this]
    have hne : l.ids ≠ [] := by
      intro hc
      have := Rbt.rootId_mem hrl
      rw [hc] at this
      simp at this
    cases hcl : l.ids.getLast? with
    | none =>
      rw [List.getLast?_eq_none_iff] at hcl
      exact absurd hcl hne
    | some a => rfl
  have hsel2 : r.rootId = none → __rb_node_predecessor h fuel n = some l.rootId := by
    intro hrnone
    rw [__rb_node_predecessor, hln, hrn, hrnone]
    simp
  have hsel3 : l.rootId = none → r.rootId.isSome →
      __rb_node_predecessor h fuel n = some r.rootId := by
    intro hlnone hrs
    rw [__rb_node_predecessor, hln, hrn, hlnone]
    obtain ⟨rr, hrr⟩ := Option.isSome_iff_exists.mp hrs
    rw [hrr]
    simp
  refine ⟨hsel1, hsel2, hsel3, ?_⟩
  intro h2 t2 nx hdel
  rw [rb_tree_delete_at] at hdel
  cases hpred : __rb_node_predecessor h fuel n with
  | none => rw [hpred] at hdel; exact absurd hdel (by simp)
  | some repl =>
    rw [hpred] at hdel
    dsimp only at hdel
    cases repl with
    | none =>
      dsimp only at hdel
      have hna : (hget h n).isSome := by rw [hw.get_of]; rfl
      cases hfix : __rb_delete_rebalance fuel h n with
      | none => rw [hfix] at hdel; exact absurd hdel (by simp)
      | some h1 =>
        rw [hfix] at hdel
        dsimp only at hdel
        cases hretr : retraceRoot h1 fuel n with
        | none => rw [hretr] at hdel; exact absurd hdel (by simp)
        | some cursor =>
          rw [hretr] at hdel
          dsimp only at hdel
          cases hnext : rb_next h1 fuel (some n) with
          | none => rw [hnext] at hdel; exact absurd hdel (by simp)
          | some next_node =>
            rw [hnext] at hdel
            dsimp only at hdel
            simp only [Option.some.injEq, Prod.mk.injEq] at hdel
            obtain ⟨hh2', _, _⟩ := hdel
            refine ⟨none, h1, rfl, hfix, hh2'.symm, ?_⟩
            have halloc : (hget h1 n).isSome := by
              rw [hget_isSome_delete_rebalance fuel h h1 n hfix]
              exact hna
            rw [← hh2']
            exact move_and_delete_disconnects_tgt h1 n halloc
    | some xx =>
      dsimp only at hdel
      have hxa : (hget h xx).isSome := by
        cases hlr : l.rootId with
        | some rl =>
          cases hrr : r.rootId with
          | some rr =>
            have hs := hsel1 (by simp [hlr]) (by simp [hrr])
            rw [hpred] at hs
            injection hs with he
            have hx2 : l.ids.getLast? = some xx := he.symm
            exact mem_ids_alloc hw.left_of (getLast?_mem' hx2)
          | none =>
            have hs := hsel2 hrr
            rw [hpred] at hs
            injection hs with he
            rw [hlr] at he
            injection he with he2
            subst he2
            exact mem_ids_alloc hw.left_of (Rbt.rootId_mem hlr)
        | none =>
          cases hrr : r.rootId with
          | some rr =>
            have hs := hsel3 hlr (by simp [hrr])
            rw [hpred] at hs
            injection hs with he
            rw [hrr] at he
            injection he with he2
            subst he2
            exact mem_ids_alloc hw.right_of (Rbt.rootId_mem hrr)
          | none =>
            have hs := hsel2 hrr
            rw [hpred] at hs
            injection hs with he
            rw [hlr] at he
            exact absurd he (by simp)
      cases hfix : __rb_delete_rebalance fuel h xx with
      | none => rw [hfix] at hdel; exact absurd hdel (by simp)
      | some h1 =>
        rw [hfix] at hdel
        dsimp only at hdel
        cases hretr : retraceRoot h1 fuel n with
        | none => rw [hretr] at hdel; exact absurd hdel (by simp)
        | some cursor =>
          rw [hretr] at hdel
          dsimp only at hdel
          cases hnext : rb_next h1 fuel (some n) with
          | none => rw [hnext] at hdel; exact absurd hdel (by simp)
          | some next_node =>
            rw [hnext] at hdel
            dsimp only at hdel
            simp only [Option.some.injEq, Prod.mk.injEq] at hdel
            obtain ⟨hh2', _, _⟩ := hdel
            refine ⟨some xx, h1, rfl, hfix, hh2'.symm, ?_⟩
            have halloc : (hget h1 xx).isSome := by
              rw [hget_isSome_delete_rebalance fuel h h1 xx hfix]
              exact hxa
            rw [← hh2']
            exact move_and_delete_disconnects_src h1 xx n halloc

/-- Witness for C3 on a three-node tree: deleting the two-child root picks
the in-order predecessor, the rightmost node of the left subtree. -/
theorem c3_delete_replacement_fixup_unlink_witness :
    __rb_node_predecessor w3h 10 0 = some (some 1) := by
  have hw : IsTree w3h none
      (Rbt.node Color.black (Rbt.node Color.red Rbt.nil 1 3 Rbt.nil) 0 5
        (Rbt.node Color.red Rbt.nil 2 7 Rbt.nil)) :=
    isTreeB_sound (by decide)
  have hmain := @c3_delete_replacement_fixup_unlink Int w3h ⟨some 0⟩ none Color.black
    (Rbt.node Color.red Rbt.nil 1 3 Rbt.nil) (Rbt.node Color.red Rbt.nil 2 7 Rbt.nil)
    0 5 10 hw (by decide)
  have h1 := hmain.1 (by decide) (by decide)
  rw [h1]
  decide

theorem slotT_parent_mem {cmp : α → α → Int} {k : α} :
    ∀ {t : Rbt α}, slotT cmp k t = some (ps, side) → ps ∈ t.ids := by
  intro t
  induction t with
  | nil => intro hs; simp [slotT] at hs
  | node c l i v r ihl ihr =>
    intro hs
    rw [slotT] at hs
    rw [Rbt.ids_node]
    by_cases hlt : cmp k v < 0
    · rw [if_pos hlt] at hs
      injection hs with he
      cases hsl : slotT cmp k l with
      | none =>
        rw [hsl] at he
        simp only [Option.getD_none] at he
        injection he with h1 h2
        subst h1
        simp
      | some s2 =>
        rw [hsl] at he
        simp only [Option.getD_some] at he
        subst he
        exact List.mem_append.mpr (Or.inl (ihl hsl))
    · rw [if_neg hlt] at hs
      injection hs with he
      cases hsr : slotT cmp k r with
      | none =>
        rw [hsr] at he
        simp only [Option.getD_none] at he
        injection he with h1 h2
        subst h1
        simp
      | some s2 =>
        rw [hsr] at he
        simp only [Option.getD_some] at he
        subst he
        exact List.mem_append.mpr (Or.inr (List.mem_cons_of_mem i (ihr hsr)))

/-- Ties go right: at a node whose payload compares equal to the inserted
key, the descent continues into the right subtree. -/
theorem slotT_ties_right {cmp : α → α → Int} {k : α} (c : Color) (l : Rbt α) (i : Nat)
    (v : α) (r : Rbt α) (heq : cmp k v = 0) :
    slotT cmp k (Rbt.node c l i v r) = some ((slotT cmp k r).getD (i, false)) := by
  rw [slotT, if_neg (by omega)]

theorem hget_hup_other (h : Heap α) (j : Nat) (r : NodeRec α) (hne : x ≠ j) :
    hget (hup h j r) x = hget h x := by
  show hget ((j, r) :: h) x = hget h x
  rw [hget]
  simp [hne]

theorem hget_disconnect_other (h : Heap α) (n : Nat) (hne : x ≠ n) :
    hget (rb_disconnect h n) x = hget h x := by
  unfold rb_disconnect
  cases hget h n with
  | none => rfl
  | some r => exact hget_hup_other h n _ hne

/-- A represented tree is untouched by heap writes outside its id set. -/
theorem IsTree_frame {h : Heap α} {p : Option Nat} {t : Rbt α} (hw : IsTree h p t)
    (h' : Heap α) (hsame : ∀ i ∈ t.ids, hget h' i = hget h i) : IsTree h' p t := by
  induction t generalizing p with
  | nil => exact IsTree.nil p
  | node c l i v r ihl ihr =>
    refine IsTree.node p c l i v r ?_ ?_ ?_
    · rw [hsame i (by rw [Rbt.ids_node]; simp)]
      exact hw.get_of
    · refine ihl hw.left_of ?_
      intro j hj
      exact hsame j (by rw [Rbt.ids_node]; exact List.mem_append.mpr (Or.inl hj))
    · refine ihr hw.right_of ?_
      intro j hj
      exact hsame j
        (by rw [Rbt.ids_node]
            exact List.mem_append.mpr (Or.inr (List.mem_cons_of_mem i hj)))

theorem slotT_node_isSome {cmp : α → α → Int} {k : α} (c : Color) (l : Rbt α) (i : Nat)
    (v : α) (r : Rbt α) : ∃ s, slotT cmp k (Rbt.node c l i v r) = some s := by
  rw [slotT]
  split
  · exact ⟨_, rfl⟩
  · exact ⟨_, rfl⟩

/-- When the descent meets a node comparing equal to the key, the final slot
is the one computed inside that node's right subtree. -/
theorem slotT_equal_on_path {cmp : α → α → Int} {k : α} {c2 : Color} {l2 : Rbt α}
    {i2 : Nat} {v2 : α} {r2 : Rbt α} :
    ∀ {t : Rbt α}, Rbt.node c2 l2 i2 v2 r2 ∈ pathSubs cmp k t → cmp k v2 = 0 →
      slotT cmp k t = some ((slotT cmp k r2).getD (i2, false)) := by
  intro t
  induction t with
  | nil => intro hm _; simp [pathSubs] at hm
  | node c l i v r ihl ihr =>
    intro hm heq
    rw [pathSubs] at hm
    rcases List.mem_cons.mp hm with hh | htail
    · injection hh with hc hl hi hv hr
      subst hc hl hi hv hr
      exact slotT_ties_right _ _ _ _ _ heq
    · by_cases hlt : cmp k v < 0
      · rw [if_pos hlt] at htail
        rw [slotT, if_pos hlt, ihl htail heq]
        simp
      · rw [if_neg hlt] at htail
        rw [slotT, if_neg hlt, ihr htail heq]
        simp

theorem hget_setLeft_other (h : Heap α) (j : Nat) (v : Option Nat) (hne : x ≠ j) :
    hget (setLeft h (some j) v) x = hget h x := by
  show hget (match hget h j with
             | some r => hup h j { r with left := v }
             | none => h) x = hget h x
  cases hget h j with
  | none => rfl
  | some r => exact hget_hup_other h j _ hne

theorem hget_setRight_other (h : Heap α) (j : Nat) (v : Option Nat) (hne : x ≠ j) :
    hget (setRight h (some j) v) x = hget h x := by
  show hget (match hget h j with
             | some r => hup h j { r with right := v }
             | none => h) x = hget h x
  cases hget h j with
  | none => rfl
  | some r => exact hget_hup_other h j _ hne

theorem setLeft_self_eq {v : Option Nat} (h : Heap α) (n : Nat) (r : NodeRec α)
    (hn : hget h n = some r) : setLeft h (some n) v = hup h n { r with left := v } := by
  show (match hget h n with
        | some rr => hup h n { rr with left := v }
        | none => h) = _
  rw [hn]

theorem setRight_self_eq {v : Option Nat} (h : Heap α) (n : Nat) (r : NodeRec α)
    (hn : hget h n = some r) : setRight h (some n) v = hup h n { r with right := v } := by
  show (match hget h n with
        | some rr => hup h n { rr with right := v }
        | none => h) = _
  rw [hn]

theorem set_parent_self_eq (h : Heap α) (n : Nat) (r : NodeRec α) (p : Option Nat)
    (hn : hget h n = some r) :
    __rb_set_parent h (some n) p = hup h n { r with parent := p } := by
  show (match hget h n with
        | some rr => hup h n { rr with parent := p }
        | none => h) = _
  rw [hn]

theorem set_red_self_eq (h : Heap α) (n : Nat) (r : NodeRec α) (hn : hget h n = some r) :
    __rb_set_red h (some n) = hup h n { r with color := Color.red } := by
  show (match hget h n with
        | some rr => hup h n { rr with color := Color.red }
        | none => h) = _
  rw [hn]

/-- Attachment step of `__rb_insert_basic`: the new node ends up red, with
both children absent, hanging under the slot parent found by the descent. -/
theorem insert_basic_attach {cmp : α → α → Int} {nrec : NodeRec α} (h : Heap α)
    (root node ps : Nat) (side : Bool) (fuel : Nat) (hne : node ≠ ps)
    (hn : hget h node = some nrec)
    (hd : __rb_insert_descend h cmp node fuel root = some (ps, side)) :
    ∃ h', __rb_insert_basic h cmp root node fuel = some h' ∧
      hget h' node = some ⟨some ps, .red, none, none, nrec.val⟩ := by
  rw [__rb_insert_basic, hd]
  refine ⟨_, rfl, ?_⟩
  have e2 : __rb_set_parent_and_color h (some node) (some ps) Color.red
      = hup (hup h node { nrec with parent := some ps }) node
          ⟨some ps, Color.red, nrec.left, nrec.right, nrec.val⟩ := by
    show __rb_set_color (__rb_set_parent h (some node) (some ps)) (some node) Color.red = _
    rw [set_parent_self_eq h node nrec (some ps) hn]
    show __rb_set_red (hup h node { nrec with parent := some ps }) (some node) = _
    rw [set_red_self_eq _ node _ (hget_hup_self _ _ _)]
  have g2 : hget (if side then
        setLeft (__rb_set_parent_and_color h (some node) (some ps) Color.red)
          (some ps) (some node)
      else
        setRight (__rb_set_parent_and_color h (some node) (some ps) Color.red)
          (some ps) (some node)) node
      = some ⟨some ps, Color.red, nrec.left, nrec.right, nrec.val⟩ := by
    cases side with
    | true =>
      rw [if_pos rfl, hget_setLeft_other _ _ _ hne, e2, hget_hup_self]
    | false =>
      rw [if_neg (by simp), hget_setRight_other _ _ _ hne, e2, hget_hup_self]
  rw [setLeft_self_eq _ node _ g2, setRight_self_eq _ node _ (hget_hup_self _ _ _),
    hget_hup_self]

theorem set_black_self_eq (h : Heap α) (n : Nat) (r : NodeRec α) (hn : hget h n = some r) :
    __rb_set_black h (some n) = hup h n { r with color := Color.black } := by
  show (match hget h n with
        | some rr => hup h n { rr with color := Color.black }
        | none => h) = _
  rw [hn]

theorem node_init_eq (h : Heap α) (node : Nat) {nrec : NodeRec α}
    (hn : hget h node = some nrec) :
    __rb_node_init h node = hup h node ⟨some node, Color.red, none, none, nrec.val⟩ := by
  show (match hget h node with
        | some r => hup h node
            { r with parent := some node, color := Color.red, left := none, right := none }
        | none => h) = _
  rw [hn]

/-- `__rb_insert_descend` refines `slotT` on represented trees. -/
theorem insert_descend_spec {cmp : α → α → Int} {nv : α} {node : Nat}
    (hw : IsTree h p t) (hr : t.rootId = some rt)
    (hnode : (hget h node).map NodeRec.val = some nv) (hfuel : t.size ≤ fuel) :
    __rb_insert_descend h cmp node fuel rt = slotT cmp nv t := by
  induction t generalizing p rt fuel with
  | nil => simp [Rbt.rootId] at hr
  | node c l i v r ihl ihr =>
    simp [Rbt.rootId] at hr
    subst hr
    obtain ⟨fuel, rfl⟩ : ∃ f, fuel = f + 1 := by
      refine ⟨fuel - 1, ?_⟩
      have : 0 < fuel := lt_of_lt_of_le (by simp [Rbt.size]) hfuel
      omega
    rw [__rb_insert_descend, slotT]
    have hcmp : cmpIds h cmp node i = cmp nv v := by
      cases hn : hget h node with
      | none => rw [hn] at hnode; exact absurd hnode (by simp)
      | some nrec =>
        rw [hn] at hnode
        simp at hnode
        rw [cmpIds, hn, hw.get_of]
        show cmp nrec.val v = cmp nv v
        rw [hnode]
    rw [hcmp]
    by_cases hlt : cmp nv v < 0
    · rw [if_pos hlt, if_pos hlt, rb_left_of hw]
      cases l with
      | nil => simp [Rbt.rootId, slotT, hlt]
      | node c2 l2 i2 v2 r2 =>
        show __rb_insert_descend h cmp node fuel i2 = _
        obtain ⟨s, hs⟩ := @slotT_node_isSome _ cmp nv c2 l2 i2 v2 r2
        rw [hs, Option.getD_some,
          ihl hw.left_of rfl (by simp [Rbt.size] at hfuel ⊢; omega), hs]
    · rw [if_neg hlt, if_neg hlt, rb_right_of hw]
      cases r with
      | nil => simp [Rbt.rootId, slotT, hlt]
      | node c2 l2 i2 v2 r2 =>
        show __rb_insert_descend h cmp node fuel i2 = _
        obtain ⟨s, hs⟩ := @slotT_node_isSome _ cmp nv c2 l2 i2 v2 r2
        rw [hs, Option.getD_some,
          ihr hw.right_of rfl (by simp [Rbt.size] at hfuel ⊢; omega), hs]

/-- C7: inserting into an empty tree makes the node the black root with an
absent parent; into a non-empty tree, the descent of `__rb_insert_basic`
follows `slotT` (left exactly on a strictly negative comparison, right
otherwise), any node met that compares equal sends the descent into its
right subtree, so the slot parent is that node itself or a node of its right
subtree; and the new node is attached at the reached slot colored red with
both children absent. -/
theorem c7_insert_descent_ties_attach {cmp : α → α → Int} {h : Heap α}
    {t : Rbt α} {node : Nat} {nrec : NodeRec α} (fuel : Nat)
    (hw : IsTree h none t) (hn : hget h node = some nrec) (hfresh : node ∉ t.ids) :
    (t = Rbt.nil → rb_is_disconnected h node = true →
      rb_tree_insert h ⟨t.rootId⟩ node cmp fuel =
        some (__rb_set_parent_and_color h (some node) none Color.black, ⟨some node⟩) ∧
      hget (__rb_set_parent_and_color h (some node) none Color.black) node =
        some ⟨none, Color.black, none, none, nrec.val⟩) ∧
    (∀ rt, t.rootId = some rt → t.size ≤ fuel →
      __rb_insert_descend (__rb_node_init h node) cmp node fuel rt = slotT cmp nrec.val t) ∧
    (∀ c2 l2 i2 v2 r2, Rbt.node c2 l2 i2 v2 r2 ∈ pathSubs cmp nrec.val t →
      cmp nrec.val v2 = 0 →
      slotT cmp nrec.val t = some ((slotT cmp nrec.val r2).getD (i2, false)) ∧
      ∀ ps side, slotT cmp nrec.val t = some (ps, side) → ps = i2 ∨ ps ∈ r2.ids) ∧
    (∀ rt ps side, t.rootId = some rt → t.size ≤ fuel →
      slotT cmp nrec.val t = some (ps, side) →
      ∃ h', __rb_insert_basic (__rb_node_init h node) cmp rt node fuel = some h' ∧
        hget h' node = some ⟨some ps, Color.red, none, none, nrec.val⟩) := by
  have hinit := node_init_eq h node hn
  have hw' : IsTree (__rb_node_init h node) none t := by
    refine IsTree_frame hw _ ?_
    intro i hi
    rw [hinit]
    exact hget_hup_other h node _ (fun he => hfresh (he ▸ hi))
  have hninit : hget (__rb_node_init h node) node
      = some ⟨some node, Color.red, none, none, nrec.val⟩ := by
    rw [hinit, hget_hup_self]
  have hdesc : ∀ rt, t.rootId = some rt → t.size ≤ fuel →
      __rb_insert_descend (__rb_node_init h node) cmp node fuel rt
        = slotT cmp nrec.val t := by
    intro rt hrt hfl
    exact insert_descend_spec hw' hrt (by rw [hninit]; rfl) hfl
  refine ⟨?_, hdesc, ?_, ?_⟩
  · intro ht hdisc
    subst ht
    simp only [rb_is_disconnected, rb_parent, rb_left, rb_right, hn, Bool.and_eq_true,
      decide_eq_true_eq, Option.isNone_iff_eq_none] at hdisc
    obtain ⟨⟨hp, hl⟩, hr⟩ := hdisc
    constructor
    · rfl
    · show hget (__rb_set_color (__rb_set_parent h (some node) none) (some node)
          Color.black) node = _
      rw [set_parent_self_eq h node nrec none hn]
      show hget (__rb_set_black (hup h node { nrec with parent := none }) (some node))
          node = _
      rw [set_black_self_eq _ node _ (hget_hup_self _ _ _), hget_hup_self, hl, hr]
  · intro c2 l2 i2 v2 r2 hmem heq
    have hs := slotT_equal_on_path hmem heq
    refine ⟨hs, ?_⟩
    intro ps side hps
    rw [hs] at hps
    injection hps with he
    cases hr2 : slotT cmp nrec.val r2 with
    | none =>
      rw [hr2] at he
      simp only [Option.getD_none] at he
      left
      exact (Prod.mk.injEq _ _ _ _ ▸ he).1.symm
    | some s2 =>
      rw [hr2] at he
      simp only [Option.getD_some] at he
      right
      subst he
      exact slotT_parent_mem hr2
  · intro rt ps side hrt hfl hslot
    have hne : node ≠ ps := fun he => hfresh (he ▸ slotT_parent_mem hslot)
    have hd : __rb_insert_descend (__rb_node_init h node) cmp node fuel rt
        = some (ps, side) := by rw [hdesc rt hrt hfl, hslot]
    obtain ⟨h', hb, hg⟩ := @insert_basic_attach α cmp
      ⟨some node, Color.red, none, none, nrec.val⟩ (__rb_node_init h node)
      rt node ps side fuel hne hninit hd
    exact ⟨h', hb, hg⟩

/-- Witness for C7: inserting a key equal to both existing nodes, the
descent reaches the absent right slot of the deeper equal node. -/
theorem c7_insert_descent_ties_attach_witness :
    __rb_insert_descend (__rb_node_init w7h 9) icmp 9 10 0 = some (1, false) := by
  have hw : IsTree w7h none (Rbt.node Color.black Rbt.nil 0 5
      (Rbt.node Color.red Rbt.nil 1 (5 : Int) Rbt.nil)) := isTreeB_sound (by decide)
  have hmain := @c7_insert_descent_ties_attach Int icmp w7h
    (Rbt.node Color.black Rbt.nil 0 5 (Rbt.node Color.red Rbt.nil 1 (5 : Int) Rbt.nil))
    9 ⟨some 9, Color.red, none, none, 5⟩ 10 hw (by decide) (by decide)
  have h2 := hmain.2.1 0 rfl (by decide)
  rw [h2]
  decide

theorem listSucc_getLast {n : Nat} :
    ∀ {l : List Nat}, l.Nodup → l.getLast? = some n → listSucc l n = none := by
  intro l
  induction l with
  | nil => intro _ hlast; simp at hlast
  | cons a rest ih =>
    intro hnd hlast
    cases rest with
    | nil => rfl
    | cons b rest2 =>
      rw [List.getLast?_cons_cons] at hlast
      have hna : n ≠ a := by
        intro he
        subst he
        have hmem : n ∈ b :: rest2 := getLast?_mem' hlast
        exact (List.nodup_cons.mp hnd).1 hmem
      rw [listSucc, if_neg hna]
      exact ih (List.nodup_cons.mp hnd).2 hlast

theorem subtree_decomp {s : Rbt α} (hw : IsTree h p t) (hnd : t.ids.Nodup)
    (hp : ∀ q, p = some q → q ∉ t.ids) (hs : s ∈ subtrees t) :
    ∃ p2, IsTree h p2 s ∧ (∀ q, p2 = some q → q ∉ s.ids) := by
  induction t generalizing p with
  | nil => simp [subtrees] at hs
  | node c l i v r ihl ihr =>
    rw [subtrees] at hs
    obtain ⟨hndl, hndr, hil, hir, hdisj⟩ := nodup_node hnd
    rcases List.mem_cons.mp hs with he | hm
    · exact ⟨p, he ▸ hw, he ▸ hp⟩
    · rcases List.mem_append.mp hm with hm2 | hm2
      · refine ihl hw.left_of hndl ?_ hm2
        intro q hq hqm
        injection hq with hq2
        exact hil (hq2 ▸ hqm)
      · refine ihr hw.right_of hndr ?_ hm2
        intro q hq hqm
        injection hq with hq2
        exact hir (hq2 ▸ hqm)

theorem size_le_of_mem_subtrees {s : Rbt α} :
    ∀ {t : Rbt α}, s ∈ subtrees t → s.size ≤ t.size := by
  intro t
  induction t with
  | nil => intro hs; simp [subtrees] at hs
  | node c l i v r ihl ihr =>
    intro hs
    rw [subtrees] at hs
    rcases List.mem_cons.mp hs with he | hm
    · rw [he]
    · rcases List.mem_append.mp hm with hm2 | hm2
      · have := ihl hm2
        simp [Rbt.size]
        omega
      · have := ihr hm2
        simp [Rbt.size]
        omega

/-- Iterating `rb_next` along any suffix of the in-order listing yields
exactly that suffix. -/
theorem iterList_spec (hw : IsTree h none t) (hr : t.rootId = some rt)
    (hnd : t.ids.Nodup) (hfuel : t.size + 1 ≤ fuel) :
    ∀ (suffix pre : List Nat) (steps : Nat), t.ids = pre ++ suffix →
      suffix.length ≤ steps → iterList h fuel steps suffix.head? = some suffix := by
  intro suffix
  induction suffix with
  | nil => intro pre steps _ _; cases steps <;> rfl
  | cons n rest ih =>
    intro pre steps hsplit hlen
    obtain ⟨s, rfl⟩ : ∃ s, steps = s + 1 := by
      refine ⟨steps - 1, ?_⟩
      simp at hlen
      omega
    have hmem : n ∈ t.ids := by rw [hsplit]; simp
    have hnext : rb_next h fuel (some n) = some (listSucc t.ids n) :=
      rb_next_spec hw hr hnd hmem hfuel
    have hnpre : n ∉ pre := by
      rw [hsplit, List.nodup_append] at hnd
      exact fun hc => hnd.2.2 hc (List.mem_cons_self n rest)
    have hsucc : listSucc t.ids n = rest.head? := by
      rw [hsplit, listSucc_self_head hnpre]
    show (match rb_next h fuel (some n) with
          | none => none
          | some nxt => (iterList h fuel s nxt).map (n :: ·)) = some (n :: rest)
    rw [hnext, hsucc]
    show (iterList h fuel s rest.head?).map (n :: ·) = some (n :: rest)
    rw [ih (pre ++ [n]) s (by rw [hsplit]; simp) (by simp at hlen ⊢; omega)]
    rfl

/-- A BST-ordered tree lists its payloads in non-decreasing comparator
order. -/
theorem vals_pairwise_of_bstOk {cmp : α → α → Int} (hc : CmpOk cmp) :
    ∀ {t : Rbt α}, bstOkB cmp t = true →
      t.vals.Pairwise (fun a b => cmp a b ≤ 0) := by
  intro t
  induction t with
  | nil => intro _; simp [Rbt.vals, Rbt.inorder]
  | node c l i v r ihl ihr =>
    intro hb
    obtain ⟨hlv, hrv, hbl, hbr⟩ := bstOkB_node hb
    have hvals : (Rbt.node c l i v r).vals = l.vals ++ v :: r.vals := by
      show ((l.inorder ++ (i, v) :: r.inorder).map Prod.snd) = _
      simp [Rbt.vals]
    rw [hvals, List.pairwise_append]
    refine ⟨ihl hbl, ?_, ?_⟩
    · rw [List.pairwise_cons]
      refine ⟨?_, ihr hbr⟩
      intro b hb2
      exact (hc.le_iff v b).mpr (hrv b hb2)
    · intro a ha b hb2
      rcases List.mem_cons.mp hb2 with he | hm
      · exact he ▸ hlv a ha
      · exact hc.le_trans a v b (hlv a ha) ((hc.le_iff v b).mpr (hrv b hm))

/-- The slot the insertion descent reaches lies after every equal payload:
the in-order listing splits around the new node with no equal key after it. -/
theorem insSlot_ties_last {cmp : α → α → Int} {k : α} (hc : CmpOk cmp) (nid : Nat) :
    ∀ {t : Rbt α}, bstOkB cmp t = true →
      ∃ pre post, (insSlot cmp k nid t).inorder = pre ++ (nid, k) :: post ∧
        t.inorder = pre ++ post ∧ ∀ x xv, (x, xv) ∈ post → cmp k xv ≠ 0 := by
  intro t
  induction t with
  | nil => exact fun _ => ⟨[], [], rfl, rfl, by simp⟩
  | node c l i v r ihl ihr =>
    intro hb
    obtain ⟨hlv, hrv, hbl, hbr⟩ := bstOkB_node hb
    by_cases hlt : cmp k v < 0
    · obtain ⟨pre, post, hins, hsplit, hfree⟩ := ihl hbl
      refine ⟨pre, post ++ (i, v) :: r.inorder, ?_, ?_, ?_⟩
      · rw [insSlot, if_pos hlt, Rbt.inorder, hins]
        simp
      · rw [Rbt.inorder, hsplit]
        simp
      · intro x xv hmem heq
        rcases List.mem_append.mp hmem with hm | hm
        · exact hfree x xv hm heq
        · rcases List.mem_cons.mp hm with he | hm2
          · have : xv = v := congrArg Prod.snd he
            subst this
            omega
          · have h1 : 0 ≤ cmp xv v :=
              hrv xv (Rbt.mem_vals_of_mem_inorder hm2)
            have h2 : cmp v xv ≤ 0 := (hc.le_iff v xv).mpr h1
            have := hc.lt_of_lt_of_le k v xv hlt h2
            omega
    · obtain ⟨pre, post, hins, hsplit, hfree⟩ := ihr hbr
      refine ⟨l.inorder ++ (i, v) :: pre, post, ?_, ?_, hfree⟩
      · rw [insSlot, if_neg hlt, Rbt.inorder, hins]
        simp
      · rw [Rbt.inorder, hsplit]
        simp

/-- C8: from `first`, repeated `rb_next` visits the in-order listing exactly
(each node once, `Nodup`), payloads are non-decreasing under the comparator,
each step yields the in-order successor (absent past the maximum); for an
in-tree node whose right subtree exists, `rb_next` is the leftmost node of
that subtree, otherwise it is the ancestor the climb loop finds; and the
descent slot for a new key falls after every equal payload in the listing. -/
theorem c8_iteration_order_next {cmp : α → α → Int} {h : Heap α} {t : Rbt α} {rt : Nat}
    (fuel : Nat) (hw : IsTree h none t) (hr : t.rootId = some rt) (hnd : t.ids.Nodup)
    (hfuel : t.size + 1 ≤ fuel) :
    (__rb_first h fuel rt = t.ids.head? ∧
      ∀ steps, t.ids.length ≤ steps →
        iterList h fuel steps t.ids.head? = some t.ids) ∧
    (CmpOk cmp → bstOkB cmp t = true →
      t.vals.Pairwise (fun a b => cmp a b ≤ 0)) ∧
    (∀ n, n ∈ t.ids → rb_next h fuel (some n) = some (listSucc t.ids n) ∧
      (t.ids.getLast? = some n → rb_next h fuel (some n) = some none)) ∧
    (∀ c2 l2 n2 v2 r2, Rbt.node c2 l2 n2 v2 r2 ∈ subtrees t →
      ((∃ c3 l3 i3 v3 r3, r2 = Rbt.node c3 l3 i3 v3 r3) →
        rb_next h fuel (some n2) = some r2.ids.head?) ∧
      (r2 = Rbt.nil → rb_next h fuel (some n2) = nextClimb h fuel n2)) ∧
    (CmpOk cmp → bstOkB cmp t = true → ∀ k nid,
      ∃ pre post, (insSlot cmp k nid t).inorder = pre ++ (nid, k) :: post ∧
        t.inorder = pre ++ post ∧ ∀ x xv, (x, xv) ∈ post → cmp k xv ≠ 0) := by
  refine ⟨⟨first_spec hw hr (by omega), ?_⟩, fun hc hb => vals_pairwise_of_bstOk hc hb,
    ?_, ?_, fun hc hb k nid => insSlot_ties_last hc nid hb⟩
  · intro steps hsteps
    exact iterList_spec hw hr hnd hfuel t.ids [] steps rfl hsteps
  · intro n hn
    refine ⟨rb_next_spec hw hr hnd hn hfuel, ?_⟩
    intro hlast
    rw [rb_next_spec hw hr hnd hn hfuel, listSucc_getLast hnd hlast]
  · intro c2 l2 n2 v2 r2 hsub
    obtain ⟨p2, hw2, hp2⟩ := subtree_decomp hw hnd (by intro q hq; cases hq) hsub
    have hdisc : rb_is_disconnected h n2 = false := by
      rw [rb_is_disconnected, rb_parent_of hw2]
      cases hq : p2 with
      | none => simp
      | some q =>
        have hne : q ≠ n2 := by
          intro he
          exact hp2 q hq (he ▸ (by rw [Rbt.ids_node]; simp))
        simp [hne]
    constructor
    · rintro ⟨c3, l3, i3, v3, r3, rfl⟩
      have hsz : (Rbt.node c3 l3 i3 v3 r3).size ≤ fuel := by
        have h1 := size_le_of_mem_subtrees hsub
        simp [Rbt.size] at h1 ⊢
        omega
      show rb_next h fuel (some n2) = _
      rw [rb_next]
      show (if rb_is_disconnected h n2 then some none
            else match rb_right h n2 with
                 | some r => (__rb_first h fuel r).map some
                 | none => nextClimb h fuel n2) = _
      rw [hdisc]
      simp only [Bool.false_eq_true, if_false]
      rw [rb_right_of hw2]
      show (__rb_first h fuel i3).map some = _
      rw [first_spec hw2.right_of rfl hsz]
      have hne : (Rbt.node c3 l3 i3 v3 r3).ids ≠ [] := by
        intro hc
        have hm := Rbt.rootId_mem (rfl : (Rbt.node c3 l3 i3 v3 r3).rootId = some i3)
        rw [hc] at hm
        simp at hm
      cases hh : (Rbt.node c3 l3 i3 v3 r3).ids with
      | nil => exact absurd hh hne
      | cons a rest => rfl
    · rintro rfl
      show rb_next h fuel (some n2) = _
      rw [rb_next]
      show (if rb_is_disconnected h n2 then some none
            else match rb_right h n2 with
                 | some r => (__rb_first h fuel r).map some
                 | none => nextClimb h fuel n2) = _
      rw [hdisc]
      simp only [Bool.false_eq_true, if_false]
      rw [rb_right_of hw2]
      rfl

theorem slotT_eq_of_toward {cmp : α → α → Int} {k : α} {t s : Rbt α}
    (ht : TowardGap cmp k t s) :
    (slotT cmp k s).isSome → slotT cmp k t = slotT cmp k s := by
  induction ht with
  | refl s2 => intro _; rfl
  | left c l i v r s2 hlt ht2 ih =>
    intro hsome
    obtain ⟨s3, hs3⟩ := Option.isSome_iff_exists.mp hsome
    rw [slotT, if_pos hlt, ih hsome, hs3, Option.getD_some]
  | right c l i v r s2 hlt ht2 ih =>
    intro hsome
    obtain ⟨s3, hs3⟩ := Option.isSome_iff_exists.mp hsome
    rw [slotT, if_neg hlt, ih hsome, hs3, Option.getD_some]

theorem inorder_subset_of_mem_subtrees {s : Rbt α} :
    ∀ {t : Rbt α}, s ∈ subtrees t → ∀ pr ∈ s.inorder, pr ∈ t.inorder := by
  intro t
  induction t with
  | nil => intro hs; simp [subtrees] at hs
  | node c l i v r ihl ihr =>
    intro hs pr hpr
    rw [subtrees] at hs
    rcases List.mem_cons.mp hs with he | hm
    · exact he ▸ hpr
    · rw [Rbt.inorder]
      rcases List.mem_append.mp hm with hm2 | hm2
      · exact List.mem_append.mpr (Or.inl (ihl hm2 pr hpr))
      · exact List.mem_append.mpr
          (Or.inr (List.mem_cons_of_mem _ (ihr hm2 pr hpr)))

/-- Splitting a listing with distinct ids at a given id is unique. -/
theorem split_unique {n : Nat} :
    ∀ {l p1 q1 p2 q2 : List (Nat × α)} {a b : α},
      (l.map Prod.fst).Nodup → l = p1 ++ (n, a) :: q1 → l = p2 ++ (n, b) :: q2 →
      p1 = p2 ∧ a = b ∧ q1 = q2 := by
  intro l
  induction l with
  | nil =>
    intro p1 q1 p2 q2 a b _ h1 _
    exact absurd h1.symm (by simp)
  | cons hd tl ih =>
    intro p1 q1 p2 q2 a b hnd h1 h2
    have hnd2 := hnd
    rw [List.map_cons, List.nodup_cons] at hnd2
    cases p1 with
    | nil =>
      simp only [List.nil_append] at h1
      injection h1 with hhd htl
      cases p2 with
      | nil =>
        simp only [List.nil_append] at h2
        injection h2 with hhd2 htl2
        have ha : a = b := by
          have := hhd.symm.trans hhd2
          exact congrArg Prod.snd this
        exact ⟨rfl, ha, htl.symm.trans htl2⟩
      | cons h2h h2t =>
        simp only [List.cons_append] at h2
        injection h2 with hhd2 htl2
        exfalso
        apply hnd2.1
        rw [hhd, htl2]
        simp
    | cons h1h h1t =>
      simp only [List.cons_append] at h1
      injection h1 with hhd1 htl1
      cases p2 with
      | nil =>
        simp only [List.nil_append] at h2
        injection h2 with hhd2 htl2
        exfalso
        apply hnd2.1
        rw [hhd2, htl1]
        simp
      | cons h2h h2t =>
        simp only [List.cons_append] at h2
        injection h2 with hhd2 htl2
        obtain ⟨hp, ha, hq⟩ := ih hnd2.2 htl1 htl2
        exact ⟨by rw [← hhd1, ← hhd2, hp], ha, hq⟩

/-- An in-tree (id, payload) pair is backed by a heap record with that
payload. -/
theorem get_val_of_mem_inorder {t : Rbt α} (hw : IsTree h p t) :
    ∀ x xv, (x, xv) ∈ t.inorder → (hget h x).map NodeRec.val = some xv := by
  induction t generalizing p with
  | nil => intro x xv hx; simp [Rbt.inorder] at hx
  | node c l i v r ihl ihr =>
    intro x xv hx
    rw [Rbt.inorder] at hx
    rcases List.mem_append.mp hx with hm | hm
    · exact ihl hw.left_of x xv hm
    · rcases List.mem_cons.mp hm with he | hm2
      · injection he with h1 h2
        subst h1 h2
        rw [hw.get_of]
        rfl
      · exact ihr hw.right_of x xv hm2

/-- When the hint's payload is strictly below the key and everything after
the hint in the listing is strictly above it, the root descent passes
through the hint. -/
theorem toward_of_strict {cmp : α → α → Int} {k : α} (hc : CmpOk cmp) :
    ∀ {t : Rbt α} {ch : Color} {lh : Rbt α} {hint : Nat} {vh : α} {rh : Rbt α}
      {pre post : List (Nat × α)},
      bstOkB cmp t = true → t.ids.Nodup →
      Rbt.node ch lh hint vh rh ∈ subtrees t →
      t.inorder = pre ++ (hint, vh) :: post →
      cmp vh k < 0 →
      (∀ x xv, (x, xv) ∈ post → cmp k xv < 0) →
      TowardGap cmp k t (Rbt.node ch lh hint vh rh) := by
  intro t
  induction t with
  | nil => intro ch lh hint vh rh pre post _ _ hs; simp [subtrees] at hs
  | node c l i v r ihl ihr =>
    intro ch lh hint vh rh pre post hb hnd hs hsplit hva hpost
    obtain ⟨hlv, hrv, hbl, hbr⟩ := bstOkB_node hb
    obtain ⟨hndl, hndr, hil, hir, hdisj⟩ := nodup_node hnd
    rw [subtrees] at hs
    have hndmap : ((Rbt.node c l i v r).inorder.map Prod.fst).Nodup := hnd
    rcases List.mem_cons.mp hs with he | hm
    · injection he with h1 h2 h3 h4 h5
      subst h1 h2 h3 h4 h5
      exact TowardGap.refl _
    · have hrootpair : (hint, vh) ∈ (Rbt.node ch lh hint vh rh).inorder := by
        rw [Rbt.inorder]
        simp
      rcases List.mem_append.mp hm with hm2 | hm2
      · have hpair : (hint, vh) ∈ l.inorder :=
          inorder_subset_of_mem_subtrees hm2 _ hrootpair
        obtain ⟨pre2, post2, hsplit2⟩ := List.append_of_mem hpair
        have hsplit3 : (Rbt.node c l i v r).inorder
            = pre2 ++ (hint, vh) :: (post2 ++ (i, v) :: r.inorder) := by
          rw [Rbt.inorder, hsplit2]
          simp
        obtain ⟨hpp, hvv, hqq⟩ := split_unique hndmap hsplit hsplit3
        have hiv : cmp k v < 0 := hpost i v (by rw [hqq]; simp)
        refine TowardGap.left c l i v r _ hiv ?_
        refine ihl hbl hndl hm2 hsplit2 hva ?_
        intro x xv hx
        exact hpost x xv (by rw [hqq]; exact List.mem_append.mpr (Or.inl hx))
      · have hvhr : vh ∈ r.vals :=
          Rbt.mem_vals_of_mem_inorder
            (inorder_subset_of_mem_subtrees hm2 _ hrootpair)
        have h1 : 0 ≤ cmp vh v := hrv vh hvhr
        have h2 : cmp v vh ≤ 0 := (hc.le_iff v vh).mpr h1
        have h3 : cmp v k < 0 := hc.lt_of_le_of_lt v vh k h2 hva
        have h4 : ¬cmp k v < 0 := by
          have := (hc.asym v k).mp h3
          omega
        have hpair : (hint, vh) ∈ r.inorder :=
          inorder_subset_of_mem_subtrees hm2 _ hrootpair
        obtain ⟨pre2, post2, hsplit2⟩ := List.append_of_mem hpair
        have hsplit3 : (Rbt.node c l i v r).inorder
            = (l.inorder ++ (i, v) :: pre2) ++ (hint, vh) :: post2 := by
          rw [Rbt.inorder, hsplit2]
          simp
        obtain ⟨hpp, hvv, hqq⟩ := split_unique hndmap hsplit hsplit3
        refine TowardGap.right c l i v r _ h4 ?_
        exact ihr hbr hndr hm2 hsplit2 hva (fun x xv hx => hpost x xv (hqq ▸ hx))

/-- C5: the hint window.  With the hint's listing split
`inorder = pre ++ (hint, vh) :: post`: `rb_next(hint)` is the head of
`post`; the coded hint check accepts exactly the spec's validity formula —
`cmp(hint, node) < 0` and the successor absent or comparing at least the
node — and on failure `rb_tree_insert_at` falls back to the plain
`rb_tree_insert` unchanged; and when the window is strict (successor absent
or strictly greater) the hinted insertion returns the same heap and tree as
the plain insertion.  (On a tie `cmp(next(hint), node) = 0` the check
accepts but the results differ; see the counterexample.) -/
theorem c5_hint_window {cmp : α → α → Int} {h : Heap α} {t : Rbt α}
    {node hint : Nat} {nrec : NodeRec α} {ch : Color} {lh rh : Rbt α} {vh : α}
    {pre post : List (Nat × α)} (fuel : Nat) (hc : CmpOk cmp)
    (hw : IsTree h none t) (hnd : t.ids.Nodup) (hb : bstOkB cmp t = true)
    (hn : hget h node = some nrec) (hfresh : node ∉ t.ids)
    (hsub : Rbt.node ch lh hint vh rh ∈ subtrees t)
    (hsplit : t.inorder = pre ++ (hint, vh) :: post)
    (hfuel : t.size + 1 ≤ fuel) :
    rb_next h fuel (some hint) = some ((post.map Prod.fst).head?) ∧
    (∀ T : RbTree, ∀ next_pos, rb_next h fuel (some hint) = some next_pos →
      ¬(cmpIds h cmp hint node < 0 ∧
        (next_pos = none ∨ ∃ np, next_pos = some np ∧ 0 ≤ cmpIds h cmp np node)) →
      rb_tree_insert_at h T node hint cmp fuel
        = rb_tree_insert h T node cmp fuel) ∧
    (cmp vh nrec.val < 0 →
      (∀ y yv tl2, post = (y, yv) :: tl2 → 0 < cmp yv nrec.val) →
      rb_tree_insert_at h ⟨t.rootId⟩ node hint cmp fuel
        = rb_tree_insert h ⟨t.rootId⟩ node cmp fuel) := by
  obtain ⟨rt, hrt⟩ : ∃ rt, t.rootId = some rt := by
    cases t with
    | nil => simp [subtrees] at hsub
    | node c2 l2 i2 v2 r2 => exact ⟨i2, rfl⟩
  have hids : t.ids = pre.map Prod.fst ++ hint :: post.map Prod.fst := by
    show t.inorder.map Prod.fst = _
    rw [hsplit]
    simp
  have hnpre : hint ∉ pre.map Prod.fst := by
    have hnd2 := hnd
    rw [hids, List.nodup_append] at hnd2
    exact fun hc2 => hnd2.2.2 hc2 (List.mem_cons_self _ _)
  have hmem : hint ∈ t.ids := by
    rw [hids]
    simp
  have hnext1 : rb_next h fuel (some hint) = some ((post.map Prod.fst).head?) := by
    rw [rb_next_spec hw hrt hnd hmem hfuel, hids, listSucc_self_head hnpre]
  refine ⟨hnext1, ?_, ?_⟩
  · intro T next_pos hnext hninval
    rw [rb_tree_insert_at, hnext]
    dsimp only
    rw [if_neg ?hcoded]
    intro hcoded2
    apply hninval
    refine ⟨hcoded2.1, ?_⟩
    cases next_pos with
    | none => exact Or.inl rfl
    | some np => exact Or.inr ⟨np, rfl, hcoded2.2⟩
  · intro hva hstrict
    have hvalsplit : t.vals = pre.map Prod.snd ++ vh :: post.map Prod.snd := by
      show t.inorder.map Prod.snd = _
      rw [hsplit]
      simp
    have hpw : (vh :: post.map Prod.snd).Pairwise (fun a b => cmp a b ≤ 0) := by
      have hall := vals_pairwise_of_bstOk hc hb
      rw [hvalsplit] at hall
      exact (List.pairwise_append.mp hall).2.1
    have hpost : ∀ x xv, (x, xv) ∈ post → cmp nrec.val xv < 0 := by
      cases post with
      | nil => intro x xv hx; simp at hx
      | cons hd tl2 =>
        obtain ⟨y, yv⟩ := hd
        intro x xv hx
        have hky : cmp nrec.val yv < 0 :=
          (hc.asym nrec.val yv).mpr (hstrict y yv tl2 rfl)
        rcases List.mem_cons.mp hx with he | hm
        · have : xv = yv := congrArg Prod.snd he
          subst this
          exact hky
        · have hyx : cmp yv xv ≤ 0 := by
            have h1 := (List.pairwise_cons.mp hpw).2
            rw [List.map_cons] at h1
            exact (List.pairwise_cons.mp h1).1 xv
              (List.mem_map_of_mem Prod.snd hm)
          exact hc.lt_of_lt_of_le nrec.val yv xv hky hyx
    have htow := toward_of_strict hc hb hnd hsub hsplit hva hpost
    have hslot_eq : slotT cmp nrec.val t
        = slotT cmp nrec.val (Rbt.node ch lh hint vh rh) := by
      refine slotT_eq_of_toward htow ?_
      obtain ⟨s3, hs3⟩ := @slotT_node_isSome α cmp nrec.val ch lh hint vh rh
      rw [hs3]
      rfl
    have hinit := node_init_eq h node hn
    have hw1 : IsTree (__rb_node_init h node) none t := by
      refine IsTree_frame hw _ ?_
      intro i hi
      rw [hinit]
      exact hget_hup_other h node _ (fun he => hfresh (he ▸ hi))
    have hval1 : (hget (__rb_node_init h node) node).map NodeRec.val
        = some nrec.val := by
      rw [hinit, hget_hup_self]
      rfl
    have hd1 : __rb_insert_descend (__rb_node_init h node) cmp node fuel rt
        = slotT cmp nrec.val t :=
      insert_descend_spec hw1 hrt hval1 (by omega)
    obtain ⟨p2, hw2, hp2⟩ :=
      subtree_decomp hw1 hnd (by intro q hq; cases hq) hsub
    have hszs : (Rbt.node ch lh hint vh rh).size ≤ fuel :=
      le_trans (size_le_of_mem_subtrees hsub) (by omega)
    have hd2 : __rb_insert_descend (__rb_node_init h node) cmp node fuel hint
        = slotT cmp nrec.val (Rbt.node ch lh hint vh rh) :=
      insert_descend_spec hw2 rfl hval1 hszs
    have hbasic : __rb_insert_basic (__rb_node_init h node) cmp hint node fuel
        = __rb_insert_basic (__rb_node_init h node) cmp rt node fuel := by
      rw [__rb_insert_basic, __rb_insert_basic, hd1, hd2, hslot_eq]
    have hless : cmpIds h cmp hint node < 0 := by
      obtain ⟨p3, hw3, _⟩ := subtree_decomp hw hnd (by intro q hq; cases hq) hsub
      rw [cmpIds, hw3.get_of, hn]
      exact hva
    rw [rb_tree_insert_at, hnext1]
    dsimp only
    rw [if_pos ?hpos]
    case hpos =>
      refine ⟨hless, ?_⟩
      cases hp : post with
      | nil =>
        subst hp
        show (0 : Int) ≥ 0
        exact le_refl 0
      | cons hd tl2 =>
        obtain ⟨y, yv⟩ := hd
        subst hp
        show cmpIds h cmp y node ≥ 0
        have hymem : (y, yv) ∈ t.inorder := by
          rw [hsplit]
          simp
        have hyv := get_val_of_mem_inorder hw y yv hymem
        rw [cmpIds, hn]
        cases hgy : hget h y with
        | none => exact absurd (hgy ▸ hyv) (by simp)
        | some yrec =>
          rw [hgy] at hyv
          simp only [Option.map_some', Option.some.injEq] at hyv
          show cmp yrec.val nrec.val ≥ 0
          rw [hyv]
          exact le_of_lt (hstrict y yv tl2 rfl)
    rw [hbasic, rb_tree_insert]
    dsimp only
    rw [hrt]

/-- C5 counterexample: with a hint the coded check accepts (successor ties
with the new key), the hinted insertion yields root id 2 while the plain
insertion yields root id 0: the results are not identical. -/
theorem c5_tie_counterexample :
    (cmpIds c5h icmp 1 2 < 0 ∧ rb_next c5h 20 (some 1) = some (some 0) ∧
      0 ≤ cmpIds c5h icmp 0 2) ∧
    (rb_tree_insert_at c5h ⟨some 0⟩ 2 1 icmp 20).map Prod.snd = some ⟨some 2⟩ ∧
    (rb_tree_insert c5h ⟨some 0⟩ 2 icmp 20).map Prod.snd = some ⟨some 0⟩ := by
  decide

/-- Witness for C5: next of the hint is the entry after it in the listing. -/
theorem c5_hint_window_witness : rb_next c5h 20 (some 1) = some (some 0) := by
  have hw : IsTree c5h none
      (Rbt.node Color.black (Rbt.node Color.red Rbt.nil 1 0 Rbt.nil) 0 (1 : Int)
        Rbt.nil) := isTreeB_sound (by decide)
  have hmain := @c5_hint_window Int icmp c5h
    (Rbt.node Color.black (Rbt.node Color.red Rbt.nil 1 0 Rbt.nil) 0 (1 : Int)
      Rbt.nil)
    2 1 ⟨some 2, Color.red, none, none, 1⟩ Color.red Rbt.nil Rbt.nil 0
    [] [(0, 1)] 20 icmpOk hw (by decide) (by decide) (by decide) (by decide)
    (by rw [(rfl : subtrees (Rbt.node Color.black
        (Rbt.node Color.red Rbt.nil 1 0 Rbt.nil) 0 (1 : Int) Rbt.nil)
      = [Rbt.node Color.black (Rbt.node Color.red Rbt.nil 1 0 Rbt.nil) 0 (1 : Int)
          Rbt.nil, Rbt.node Color.red Rbt.nil 1 0 Rbt.nil])]
        exact List.mem_cons_of_mem _ (List.mem_cons_self _ _))
    rfl (by decide)
  exact hmain.1

/-- Witness for C8: iterating three steps from the leftmost node of the
three-node tree visits the whole in-order listing. -/
theorem c8_iteration_order_next_witness :
    iterList w3h 10 3 (some 1) = some [1, 0, 2] := by
  have hw : IsTree w3h none
      (Rbt.node Color.black (Rbt.node Color.red Rbt.nil 1 3 Rbt.nil) 0 5
        (Rbt.node Color.red Rbt.nil 2 7 Rbt.nil)) := isTreeB_sound (by decide)
  have hmain := @c8_iteration_order_next Int icmp w3h
    (Rbt.node Color.black (Rbt.node Color.red Rbt.nil 1 3 Rbt.nil) 0 5
      (Rbt.node Color.red Rbt.nil 2 7 Rbt.nil)) 0 10 hw rfl (by decide) (by decide)
  exact hmain.1.2 3 (by decide)

end RbC
